import Mathlib

/-!
Shallow embedding of `src/allocator.c` (fixed-size bare-metal pool allocator)
together with proofs of the specified properties.

Modelling conventions:
* `uint32_t` offsets and sizes are modelled by `Nat`; in every reachable state
  they are bounded by `TOTAL_MEMORY = 102400 < 2^32`, and the requested size is
  the cast of a positive C `int` (so `< 2^31`), hence no 32-bit wrap-around can
  occur in any arithmetic the code performs and plain `Nat` arithmetic is exact.
* `int32_t` list indices (with the `-1` sentinel) are modelled by `Int`.
* The statically allocated node pool `node_pool[MAX_NODES]` is modelled by a
  `List alloc_node_t` of length `MAX_NODES`; `node_pool == NULL` is `none`.
* Returned pointers `&g_mem.raw[off]` are modelled by their byte offset `off`
  from the arena base; `NULL` is `none`.  An argument pointer handed to
  `deallocate` is either `NULL` or some byte displacement from the arena base
  (possibly negative or past the end, covering foreign pointers).
* The C `while` loops walk the linked list; they are modelled with an explicit
  fuel of `MAX_NODES + 1` steps, which strictly exceeds the length of any
  acyclic chain over `MAX_NODES` slots, so the fuel never runs out in any
  state satisfying the list invariant.
-/

/-- `TOTAL_MEMORY`: total managed memory in bytes (100 KB). -/
def TOTAL_MEMORY : Nat := 100 * 1024

/-- `MAX_NODES`: maximum number of allocation metadata entries. -/
def MAX_NODES : Nat := 96

/-- `sizeof(alloc_node_t)`: two `uint32_t` fields and one `int32_t` field,
4-byte aligned, no padding. -/
def SIZEOF_ALLOC_NODE : Nat := 12

/-- `NODE_POOL_BYTES`: bytes required for all metadata entries combined. -/
def NODE_POOL_BYTES : Nat := MAX_NODES * SIZEOF_ALLOC_NODE

/-- Allocation tracking entry (`alloc_node_t`). -/
structure alloc_node_t where
  offset : Nat
  size : Nat
  next : Int
deriving DecidableEq

/-- Reading slot `i` of the node pool (`node_pool[i]`). Out-of-range reads
never happen on the paths the code takes; they default to a zeroed slot. -/
def getSlot (ns : List alloc_node_t) (i : Nat) : alloc_node_t :=
  (ns.get? i).getD ⟨0, 0, -1⟩

/-- Reading the node pool at an `int32_t` index (`node_pool[i]` with `i ≥ 0`). -/
def getN (ns : List alloc_node_t) (i : Int) : alloc_node_t :=
  getSlot ns i.toNat

/-- The allocator's mutable state: `node_pool` (with `none` for `NULL`),
`head_index` and `full_taken` from `allocator.c`. -/
structure AllocState where
  node_pool : Option (List alloc_node_t)
  head_index : Int
  full_taken : Bool
deriving DecidableEq

/-- The initial state of the translation unit's statics. -/
def initState : AllocState := ⟨none, -1, false⟩

/-- The freshly initialized metadata area produced by `ensure_node_pool`:
every slot has `offset = 0`, `size = 0`, `next = -1`. -/
def freshPool : List alloc_node_t := List.replicate MAX_NODES ⟨0, 0, -1⟩

/-- `ensure_node_pool`: lazily carve the metadata table from the arena. -/
def ensure_node_pool (s : AllocState) : AllocState :=
  match s.node_pool with
  | some _ => s
  | none =>
    if s.full_taken then s
    else if NODE_POOL_BYTES ≥ TOTAL_MEMORY then s
    else { s with node_pool := some freshPool, head_index := -1 }

/-- `node_slot_alloc`: index of the first metadata slot with `size == 0`,
or `-1` if none is free. -/
def node_slot_alloc (ns : List alloc_node_t) : Int :=
  match (List.range MAX_NODES).find? (fun i => (getSlot ns i).size == 0) with
  | some i => (i : Int)
  | none => -1

/-- The `while` loop of `list_insert_sorted`: advance `prev` while the next
node exists and its offset is below `off`. -/
def findInsertPrev (ns : List alloc_node_t) (off : Nat) : Nat → Int → Int
  | 0, prev => prev
  | fuel + 1, prev =>
    if (getN ns prev).next ≠ -1 ∧ (getN ns (getN ns prev).next).offset < off then
      findInsertPrev ns off fuel (getN ns prev).next
    else prev

/-- `list_insert_sorted`: insert node `idx` into the offset-sorted linked
list with head `h`; returns the updated pool and the new head index. -/
def list_insert_sorted (ns : List alloc_node_t) (h : Int) (idx : Int) :
    List alloc_node_t × Int :=
  if h = -1 ∨ (getN ns idx).offset < (getN ns h).offset then
    (ns.set idx.toNat { getN ns idx with next := h }, idx)
  else
    let prev := findInsertPrev ns (getN ns idx).offset MAX_NODES h
    let ns1 := ns.set idx.toNat { getN ns idx with next := (getN ns prev).next }
    (ns1.set prev.toNat { getN ns1 prev with next := idx }, h)

/-- The `while` loop of `list_remove_by_offset`: scan for the node whose
offset is `off`; on a hit unlink it (updating the predecessor's `next`, or
the head when the hit is the first node) and clear its `next`.  Returns the
removed index (or `-1`), the updated pool and the updated head. -/
def list_remove_go (ns : List alloc_node_t) (off : Nat) (h : Int) :
    Nat → Int → Int → Int × List alloc_node_t × Int
  | 0, _, _ => (-1, ns, h)
  | fuel + 1, prev, cur =>
    if cur = -1 then (-1, ns, h)
    else if (getN ns cur).offset = off then
      let p : List alloc_node_t × Int :=
        if prev = -1 then (ns, (getN ns cur).next)
        else (ns.set prev.toNat { getN ns prev with next := (getN ns cur).next }, h)
      (cur, (p.1.set cur.toNat { getN p.1 cur with next := -1 }, p.2))
    else list_remove_go ns off h fuel cur (getN ns cur).next

/-- `list_remove_by_offset`: remove the block starting at offset `off`. -/
def list_remove_by_offset (ns : List alloc_node_t) (h : Int) (off : Nat) :
    Int × List alloc_node_t × Int :=
  list_remove_go ns off h (MAX_NODES + 1) (-1) h

/-- `try_uncarve_when_empty`: reset `node_pool` to `NULL` when the list is
empty. -/
def try_uncarve_when_empty (s : AllocState) : AllocState :=
  if s.head_index ≠ -1 then s else { s with node_pool := none }

/-- The gap-scanning loop of `allocate` (case 3): walk the chain from `cur`
and return the start of the first gap of capacity at least `req`, where a
gap runs from the end of a block to the next block's offset (or to
`TOTAL_MEMORY` after the last block). -/
def find_gap (ns : List alloc_node_t) (req : Nat) : Nat → Int → Option Nat
  | 0, _ => none
  | fuel + 1, cur =>
    if cur = -1 then none
    else
      let gapStart := (getN ns cur).offset + (getN ns cur).size
      let gapEnd :=
        if (getN ns cur).next = -1 then TOTAL_MEMORY
        else (getN ns (getN ns cur).next).offset
      if gapStart < gapEnd ∧ req ≤ gapEnd - gapStart then some gapStart
      else find_gap ns req fuel (getN ns cur).next

/-- The common tail of the three placement sites in `allocate`: grab a free
metadata slot (failing with `NULL` if none), record `{offset, size}` there,
insert it into the sorted list, and return the block's offset. -/
def place (ns : List alloc_node_t) (s : AllocState) (off req : Nat) :
    Option Nat × AllocState :=
  let idx := node_slot_alloc ns
  if idx < 0 then (none, s)
  else
    let ns1 := ns.set idx.toNat { getN ns idx with offset := off, size := req }
    let r := list_insert_sorted ns1 s.head_index idx
    (some off, { s with node_pool := some r.1, head_index := r.2 })

/-- The body of `allocate` after the pool has been carved (cases 1-3). -/
def alloc_carved (ns : List alloc_node_t) (s : AllocState) (req : Nat) :
    Option Nat × AllocState :=
  if s.head_index = -1 then
    if NODE_POOL_BYTES + req ≤ TOTAL_MEMORY then place ns s NODE_POOL_BYTES req
    else (none, s)
  else if NODE_POOL_BYTES + req ≤ (getN ns s.head_index).offset then
    place ns s NODE_POOL_BYTES req
  else
    match find_gap ns req (MAX_NODES + 1) s.head_index with
    | some off => place ns s off req
    | none => (none, s)

/-- `allocate`: returns the byte offset of the allocated block from the
arena base (`some off` for `&g_mem.raw[off]`) or `none` for `NULL`, together
with the new allocator state. -/
def allocate (size : Int) (s : AllocState) : Option Nat × AllocState :=
  if size ≤ 0 then (none, s)
  else if size.toNat = TOTAL_MEMORY then
    if s.full_taken = true ∨ s.node_pool ≠ none ∨ s.head_index ≠ -1 then (none, s)
    else (some 0, { s with full_taken := true })
  else if s.full_taken = true then (none, s)
  else
    match (ensure_node_pool s).node_pool with
    | none => (none, ensure_node_pool s)
    | some ns => alloc_carved ns (ensure_node_pool s) size.toNat

/-- A pointer value handed to `deallocate`: `NULL`, or an address written as
its (possibly negative, possibly past-the-end) byte displacement from the
arena base `g_mem.raw`. -/
inductive Ptr where
  | null : Ptr
  | addr : Int → Ptr
deriving DecidableEq

/-- `deallocate`: free a previously allocated block; silently ignores
`NULL`, foreign and stale pointers. -/
def deallocate (p : Ptr) (s : AllocState) : AllocState :=
  match p with
  | .null => s
  | .addr d =>
    if d < 0 ∨ (TOTAL_MEMORY : Int) ≤ d then s
    else if s.full_taken = true ∧ d = 0 then { s with full_taken := false }
    else
      match s.node_pool with
      | none => s
      | some ns =>
        let r := list_remove_by_offset ns s.head_index d.toNat
        let s1 : AllocState := { s with node_pool := some r.2.1, head_index := r.2.2 }
        if r.1 < 0 then s1
        else
          let ns2 := r.2.1.set r.1.toNat { getN r.2.1 r.1 with offset := 0, size := 0 }
          let s2 : AllocState := { s with node_pool := some ns2, head_index := r.2.2 }
          if r.2.2 = -1 then try_uncarve_when_empty s2 else s2

/-- One external call to the allocator. -/
inductive Op where
  | alloc : Int → Op
  | dealloc : Ptr → Op
deriving DecidableEq

/-- Apply one call to a state. -/
def applyOp (s : AllocState) : Op → AllocState
  | .alloc n => (allocate n s).2
  | .dealloc p => deallocate p s

/-- Run a sequence of calls from a state. -/
def runOpsFrom (s : AllocState) (ops : List Op) : AllocState :=
  ops.foldl applyOp s

/-- Run a sequence of calls from the initial state. -/
def runOps (ops : List Op) : AllocState :=
  runOpsFrom initState ops

/-- States reachable from the initial state by `allocate`/`deallocate`. -/
inductive Reachable : AllocState → Prop
  | init : Reachable initState
  | step_alloc {s} (n : Int) : Reachable s → Reachable (allocate n s).2
  | step_dealloc {s} (p : Ptr) : Reachable s → Reachable (deallocate p s)

/-- Does every `allocate` call in the sequence succeed when run from `s`? -/
def allocsSucceedB (s : AllocState) : List Op → Bool
  | [] => true
  | .alloc n :: ops => (allocate n s).1.isSome && allocsSucceedB (allocate n s).2 ops
  | .dealloc p :: ops => allocsSucceedB (deallocate p s) ops

/-- The abstract traversal of the linked list: follow `next` from `h` for at
most `fuel` steps, collecting the visited slot indices; `none` when the fuel
runs out or an index leaves the valid slot range. -/
def chainList (ns : List alloc_node_t) : Nat → Int → Option (List Nat)
  | 0, h => if h = -1 then some [] else none
  | fuel + 1, h =>
    if h = -1 then some []
    else if 0 ≤ h ∧ h.toNat < MAX_NODES then
      match chainList ns fuel (getSlot ns h.toNat).next with
      | some l => some (h.toNat :: l)
      | none => none
    else none

/-- A fuel-free chain segment: following `next` from `h` through exactly the
indices of `l` ends at `h2`. -/
def chainSeg (ns : List alloc_node_t) : Int → List Nat → Int → Prop
  | h, [], h2 => h = h2
  | h, i :: is, h2 => h = (i : Int) ∧ i < MAX_NODES ∧ chainSeg ns (getSlot ns i).next is h2

/-- Block `i` ends no later than block `j` begins. -/
def slotR (ns : List alloc_node_t) (i j : Nat) : Prop :=
  (getSlot ns i).offset + (getSlot ns i).size ≤ (getSlot ns j).offset

/-- Every listed node is a live in-range block inside the usable window. -/
def nodesOK (ns : List alloc_node_t) (l : List Nat) : Prop :=
  ∀ i ∈ l, i < MAX_NODES ∧ 0 < (getSlot ns i).size ∧
    NODE_POOL_BYTES ≤ (getSlot ns i).offset ∧
    (getSlot ns i).offset + (getSlot ns i).size ≤ TOTAL_MEMORY

/-- Adjacent listed blocks are ordered and disjoint. -/
def gapSorted (ns : List alloc_node_t) (l : List Nat) : Prop :=
  List.Chain' (slotR ns) l

/-- Every slot with nonzero size is on the list. -/
def liveInChain (ns : List alloc_node_t) (l : List Nat) : Prop :=
  ∀ k, k < MAX_NODES → (getSlot ns k).size ≠ 0 → k ∈ l

/-- Invariant of a carved pool and its list head. -/
def listInv (ns : List alloc_node_t) (h : Int) : Prop :=
  ∃ l, chainList ns (MAX_NODES + 1) h = some l ∧
    nodesOK ns l ∧ gapSorted ns l ∧ liveInChain ns l

/-- The allocator's global invariant: an absent pool forces an empty list
head, and a carved pool is a full-length table with `full_taken` clear and a
well-formed live list. -/
def AllocInv (s : AllocState) : Prop :=
  (s.node_pool = none → s.head_index = -1) ∧
  (∀ ns, s.node_pool = some ns →
    ns.length = MAX_NODES ∧ s.full_taken = false ∧ listInv ns s.head_index)

/-- Two byte ranges `[o1, o1+s1)` and `[o2, o2+s2)` are disjoint. -/
def rangesDisjoint (n m : alloc_node_t) : Prop :=
  n.offset + n.size ≤ m.offset ∨ m.offset + m.size ≤ n.offset

/-- Is `p` the base address of a currently live block (the whole-arena block
or a block on the live list)? -/
def liveAtB (s : AllocState) (p : Ptr) : Bool :=
  match p with
  | .null => false
  | .addr d =>
    (s.full_taken && d == 0) ||
      (match s.node_pool with
       | none => false
       | some ns =>
         match chainList ns (MAX_NODES + 1) s.head_index with
         | none => false
         | some l => l.any (fun i => ((getSlot ns i).offset : Int) == d))

/-- A state where a carved pool implies a non-empty live list.  This holds
along any call sequence whose `allocate` calls all succeed: only a failed
`allocate` can leave the table carved with no live blocks. -/
def carvedNonEmpty (s : AllocState) : Prop :=
  s.node_pool ≠ none → s.head_index ≠ -1

/-- State after allocating 128 then 1024 bytes from the initial state. -/
def demoState1 : AllocState := runOps [Op.alloc 128, Op.alloc 1024]

/-- The carved pool of `demoState1`. -/
def demoPool1 : List alloc_node_t := demoState1.node_pool.getD []

/-- The live chain of `demoState1`. -/
def demoChain1 : List Nat :=
  (chainList demoPool1 (MAX_NODES + 1) demoState1.head_index).getD []

/-- State after allocating 128, 1024 and 4096 bytes from the initial state. -/
def fitState : AllocState := runOps [Op.alloc 128, Op.alloc 1024, Op.alloc 4096]

/-- The carved pool of `fitState`. -/
def fitPool : List alloc_node_t := fitState.node_pool.getD []

/-- State after the whole-arena allocation from the initial state. -/
def fullState : AllocState := runOps [Op.alloc (TOTAL_MEMORY : Int)]

/-! ### Basic lemmas about slots and chains -/

theorem getSlot_set_ne (ns : List alloc_node_t) (k : Nat) (v : alloc_node_t) (i : Nat)
    (hne : k ≠ i) : getSlot (ns.set k v) i = getSlot ns i := by
  unfold getSlot
  rw [List.get?_set_ne v ns hne]

theorem getSlot_set_self (ns : List alloc_node_t) (k : Nat) (v : alloc_node_t)
    (hk : k < ns.length) : getSlot (ns.set k v) k = v := by
  unfold getSlot
  rw [List.get?_set_eq_of_lt v hk]
  rfl

theorem length_set_eq (ns : List alloc_node_t) (k : Nat) (v : alloc_node_t) :
    (ns.set k v).length = ns.length := by
  simp

theorem chainSeg_append (ns : List alloc_node_t) (l1 l2 : List Nat) (h h2 h3 : Int)
    (s1 : chainSeg ns h l1 h2) (s2 : chainSeg ns h2 l2 h3) :
    chainSeg ns h (l1 ++ l2) h3 := by
  induction l1 generalizing h with
  | nil => cases s1; exact s2
  | cons i is ih =>
    obtain ⟨hh, hi, hrest⟩ := s1
    exact ⟨hh, hi, ih _ hrest⟩

theorem chainSeg_split (ns : List alloc_node_t) (l1 l2 : List Nat) (h h3 : Int)
    (s : chainSeg ns h (l1 ++ l2) h3) :
    ∃ h2, chainSeg ns h l1 h2 ∧ chainSeg ns h2 l2 h3 := by
  induction l1 generalizing h with
  | nil => exact ⟨h, rfl, s⟩
  | cons i is ih =>
    obtain ⟨hh, hi, hrest⟩ := s
    obtain ⟨h2, hA, hB⟩ := ih _ hrest
    exact ⟨h2, ⟨hh, hi, hA⟩, hB⟩

theorem chainSeg_congr (ns ns' : List alloc_node_t) (l : List Nat) (h h2 : Int)
    (hsame : ∀ i ∈ l, getSlot ns' i = getSlot ns i)
    (s : chainSeg ns h l h2) : chainSeg ns' h l h2 := by
  induction l generalizing h with
  | nil => exact s
  | cons i is ih =>
    obtain ⟨hh, hi, hrest⟩ := s
    refine ⟨hh, hi, ?_⟩
    rw [hsame i (by simp)]
    exact ih _ (fun j hj => hsame j (by simp [hj])) hrest

theorem chainSeg_mem_lt (ns : List alloc_node_t) (l : List Nat) (h h2 : Int)
    (s : chainSeg ns h l h2) : ∀ i ∈ l, i < MAX_NODES := by
  induction l generalizing h with
  | nil => intro i hi; cases hi
  | cons i is ih =>
    obtain ⟨hh, hi, hrest⟩ := s
    intro j hj
    rcases List.mem_cons.mp hj with rfl | hj
    · exact hi
    · exact ih _ hrest j hj

theorem chainList_to_seg (ns : List alloc_node_t) (f : Nat) (h : Int) (l : List Nat)
    (hc : chainList ns f h = some l) : chainSeg ns h l (-1) ∧ l.length ≤ f := by
  induction f generalizing h l with
  | zero =>
    unfold chainList at hc
    split at hc
    · cases hc
      exact ⟨‹h = -1›, by simp⟩
    · cases hc
  | succ f ih =>
    unfold chainList at hc
    split at hc
    · cases hc
      exact ⟨‹h = -1›, by simp⟩
    · split at hc
      · rename_i hne hrange
        obtain ⟨h0, hlt⟩ := hrange
        cases hm : chainList ns f (getSlot ns h.toNat).next with
        | none => rw [hm] at hc; cases hc
        | some l0 =>
          rw [hm] at hc
          cases hc
          obtain ⟨hseg, hlen⟩ := ih _ _ hm
          refine ⟨⟨?_, hlt, hseg⟩, by simpa using Nat.succ_le_succ hlen⟩
          omega
      · cases hc

theorem seg_to_chainList (ns : List alloc_node_t) (l : List Nat) (h : Int) (f : Nat)
    (s : chainSeg ns h l (-1)) (hf : l.length ≤ f) :
    chainList ns f h = some l := by
  induction l generalizing h f with
  | nil =>
    cases s
    cases f <;> simp [chainList]
  | cons i is ih =>
    obtain ⟨hh, hi, hrest⟩ := s
    cases f with
    | zero => simp at hf
    | succ f =>
      have hne : h ≠ -1 := by omega
      have h0 : 0 ≤ h := by omega
      have htn : h.toNat = i := by omega
      unfold chainList
      rw [if_neg hne, if_pos ⟨h0, by rw [htn]; exact hi⟩, htn]
      rw [ih _ _ hrest (by simpa using Nat.succ_le_succ_iff.mp hf)]

theorem chainList_nil_head (ns : List alloc_node_t) (f : Nat) (h : Int)
    (hc : chainList ns f h = some []) : h = -1 := by
  have := (chainList_to_seg ns f h [] hc).1
  exact this

theorem chainList_cons_head (ns : List alloc_node_t) (f : Nat) (h : Int) (i : Nat)
    (l : List Nat) (hc : chainList ns f h = some (i :: l)) : h = (i : Int) := by
  have := (chainList_to_seg ns f h (i :: l) hc).1
  exact this.1

theorem gapSorted_pairwise (ns : List alloc_node_t) (l : List Nat)
    (hg : gapSorted ns l) : l.Pairwise (slotR ns) := by
  haveI : IsTrans Nat (slotR ns) := ⟨by
    intro a b c hab hbc
    unfold slotR at *
    omega⟩
  exact List.chain'_iff_pairwise.mp hg

theorem pairwise_gapSorted (ns : List alloc_node_t) (l : List Nat)
    (hp : l.Pairwise (slotR ns)) : gapSorted ns l :=
  hp.chain'

theorem pairwise_offset_lt (ns : List alloc_node_t) (l : List Nat)
    (hOK : nodesOK ns l) (hg : gapSorted ns l) :
    l.Pairwise (fun i j => (getSlot ns i).offset < (getSlot ns j).offset) := by
  refine (gapSorted_pairwise ns l hg).imp_of_mem ?_
  intro i j hi _ hij
  have := (hOK i hi).2.1
  unfold slotR at hij
  omega

theorem nodup_of_inv (ns : List alloc_node_t) (l : List Nat)
    (hOK : nodesOK ns l) (hg : gapSorted ns l) : l.Nodup := by
  refine (pairwise_offset_lt ns l hOK hg).imp ?_
  intro i j hij
  intro hEq
  rw [hEq] at hij
  omega

theorem length_le_max (ns : List alloc_node_t) (l : List Nat)
    (hOK : nodesOK ns l) (hg : gapSorted ns l) : l.length ≤ MAX_NODES := by
  have hsub : l ⊆ List.range MAX_NODES := by
    intro i hi
    exact List.mem_range.mpr (hOK i hi).1
  have := List.Subperm.length_le ((nodup_of_inv ns l hOK hg).subperm hsub)
  simpa using this

theorem getN_ofNat (ns : List alloc_node_t) (i : Nat) : getN ns (i : Int) = getSlot ns i := by
  simp [getN]


/-- The insertion walk stops at the last node whose offset is below `X`,
splitting the chain into the nodes before and the nodes at-or-after the
insertion point. -/
theorem findInsertPrev_split (ns : List alloc_node_t) (X : Nat) :
    ∀ (l : List Nat) (c : Nat) (fuel : Nat),
    chainSeg ns (c : Int) (c :: l) (-1) →
    (getSlot ns c).offset < X →
    (∀ j ∈ l, (getSlot ns j).offset < X ∨ X < (getSlot ns j).offset) →
    (c :: l).Pairwise (fun i j => (getSlot ns i).offset < (getSlot ns j).offset) →
    l.length ≤ fuel →
    ∃ (l1 l2 : List Nat) (p : Nat), c :: l = l1 ++ l2 ∧ l1 ≠ [] ∧
      (∀ j ∈ l1, (getSlot ns j).offset < X) ∧
      (∀ j ∈ l2, X < (getSlot ns j).offset) ∧
      findInsertPrev ns X fuel (c : Int) = (p : Int) ∧
      l1.getLast? = some p := by
  intro l
  induction l with
  | nil =>
    intro c fuel hseg hc _ _ _
    obtain ⟨-, -, hnx⟩ := hseg
    have hnx' : (getSlot ns c).next = -1 := hnx
    refine ⟨[c], [], c, by simp, by simp, ?_, by simp, ?_, by simp⟩
    · intro m hm
      rw [List.mem_singleton] at hm
      subst hm
      exact hc
    · cases fuel with
      | zero => rfl
      | succ fuel =>
        unfold findInsertPrev
        simp only [getN, Int.toNat_natCast]
        rw [hnx']
        simp
  | cons j rest ih =>
    intro c fuel hseg hc hside hpw hfuel
    obtain ⟨-, -, hnext⟩ := hseg
    obtain ⟨hcj, hjlt, hrest⟩ := hnext
    have hrest' : chainSeg ns (j : Int) (j :: rest) (-1) := ⟨rfl, hjlt, hrest⟩
    by_cases hj : (getSlot ns j).offset < X
    · cases fuel with
      | zero => simp at hfuel
      | succ fuel =>
        obtain ⟨l1, l2, p, hsplit, hne, h1, h2, hwalk, hlast⟩ :=
          ih j fuel hrest' hj (fun m hm => hside m (by simp [hm]))
            (List.pairwise_cons.mp hpw).2 (by simpa using Nat.succ_le_succ_iff.mp hfuel)
        refine ⟨c :: l1, l2, p, by rw [List.cons_append, ← hsplit], by simp, ?_, h2, ?_, ?_⟩
        · intro m hm
          rcases List.mem_cons.mp hm with rfl | hm
          · exact hc
          · exact h1 m hm
        · unfold findInsertPrev
          simp only [getN, Int.toNat_natCast]
          rw [hcj]
          simp only [Int.toNat_natCast]
          rw [if_pos ⟨by omega, hj⟩]
          exact hwalk
        · cases l1 with
          | nil => exact absurd rfl hne
          | cons a as =>
            rw [List.getLast?_cons_cons]
            exact hlast
    · have hj' : X < (getSlot ns j).offset := by
        rcases hside j (by simp) with h | h
        · exact absurd h hj
        · exact h
      refine ⟨[c], j :: rest, c, by simp, by simp, ?_, ?_, ?_, by simp⟩
      · intro m hm
        rw [List.mem_singleton] at hm
        subst hm
        exact hc
      · intro m hm
        rcases List.mem_cons.mp hm with rfl | hm
        · exact hj'
        · have hlt : (getSlot ns j).offset < (getSlot ns m).offset :=
            (List.pairwise_cons.mp (List.pairwise_cons.mp hpw).2).1 m hm
          omega
      · cases fuel with
        | zero => rfl
        | succ fuel =>
          unfold findInsertPrev
          simp only [getN, Int.toNat_natCast]
          rw [hcj]
          simp only [Int.toNat_natCast]
          rw [if_neg (by intro hco; exact hj hco.2)]

/-- Inserting a node that is pairwise range-disjoint from the listed nodes,
between the listed nodes below it and those above it, keeps the list
pairwise ordered-and-disjoint. -/
theorem pairwise_insert_mid (ns : List alloc_node_t) (l1 l2 : List Nat) (idx : Nat)
    (hp : (l1 ++ l2).Pairwise (slotR ns))
    (h1 : ∀ j ∈ l1, slotR ns j idx)
    (h2 : ∀ j ∈ l2, slotR ns idx j) :
    (l1 ++ idx :: l2).Pairwise (slotR ns) := by
  rw [List.pairwise_append] at hp
  rw [List.pairwise_append]
  refine ⟨hp.1, ?_, ?_⟩
  · rw [List.pairwise_cons]
    exact ⟨h2, hp.2.1⟩
  · intro a ha b hb
    rcases List.mem_cons.mp hb with rfl | hb
    · exact h1 a ha
    · exact hp.2.2 a ha b hb

theorem chainSeg_nil_of_neg (ns : List alloc_node_t) (l : List Nat)
    (hseg : chainSeg ns (-1) l (-1)) : l = [] := by
  cases l with
  | nil => rfl
  | cons i is =>
    obtain ⟨hh, -, -⟩ := hseg
    omega

/-- Effect of `list_insert_sorted` on a well-formed chain: the new node lands
between the listed nodes whose offsets are below it and those above it, only
`next` fields change, and the pool length is unchanged. -/
theorem list_insert_sorted_spec
    (ns : List alloc_node_t) (h : Int) (l : List Nat) (idx : Nat)
    (hlen : ns.length = MAX_NODES)
    (hseg : chainSeg ns h l (-1))
    (hOK : nodesOK ns l) (hg : gapSorted ns l)
    (hidx : idx < MAX_NODES) (hnotin : idx ∉ l)
    (hfit : ∀ j ∈ l, (getSlot ns j).offset + (getSlot ns j).size ≤ (getSlot ns idx).offset ∨
      (getSlot ns idx).offset + (getSlot ns idx).size ≤ (getSlot ns j).offset)
    (hsz : 0 < (getSlot ns idx).size) :
    ∃ (l1 l2 : List Nat),
      l = l1 ++ l2 ∧
      chainSeg (list_insert_sorted ns h (idx : Int)).1
        (list_insert_sorted ns h (idx : Int)).2 (l1 ++ idx :: l2) (-1) ∧
      (∀ k, (getSlot (list_insert_sorted ns h (idx : Int)).1 k).offset = (getSlot ns k).offset ∧
            (getSlot (list_insert_sorted ns h (idx : Int)).1 k).size = (getSlot ns k).size) ∧
      (∀ j ∈ l1, (getSlot ns j).offset < (getSlot ns idx).offset) ∧
      (∀ j ∈ l2, (getSlot ns idx).offset < (getSlot ns j).offset) ∧
      (list_insert_sorted ns h (idx : Int)).1.length = ns.length := by
  have hidxlen : idx < ns.length := by omega
  by_cases hcond : h = -1 ∨ (getN ns (idx : Int)).offset < (getN ns h).offset
  · have heq : list_insert_sorted ns h (idx : Int) =
        (ns.set idx { getSlot ns idx with next := h }, (idx : Int)) := by
      unfold list_insert_sorted
      rw [if_pos hcond]
      simp [getN]
    rw [heq]
    have hpres : ∀ k, (getSlot (ns.set idx { getSlot ns idx with next := h }) k).offset =
        (getSlot ns k).offset ∧
        (getSlot (ns.set idx { getSlot ns idx with next := h }) k).size = (getSlot ns k).size := by
      intro k
      by_cases hk : idx = k
      · subst hk
        rw [getSlot_set_self ns idx _ hidxlen]
        exact ⟨rfl, rfl⟩
      · rw [getSlot_set_ne ns idx _ k hk]
        exact ⟨rfl, rfl⟩
    have hcongr : ∀ j ∈ l, getSlot (ns.set idx { getSlot ns idx with next := h }) j =
        getSlot ns j := by
      intro j hj
      exact getSlot_set_ne ns idx _ j (fun he => hnotin (he ▸ hj))
    rcases hcond with hh | hlt
    · subst hh
      have hl : l = [] := chainSeg_nil_of_neg ns l hseg
      subst hl
      refine ⟨[], [], rfl, ?_, hpres, by simp, by simp, by simp⟩
      refine ⟨rfl, hidx, ?_⟩
      show (getSlot (ns.set idx { getSlot ns idx with next := -1 }) idx).next = -1
      rw [getSlot_set_self ns idx _ hidxlen]
    · cases l with
      | nil =>
        refine ⟨[], [], rfl, ?_, hpres, by simp, by simp, by simp⟩
        have hh : h = -1 := hseg
        subst hh
        refine ⟨rfl, hidx, ?_⟩
        show (getSlot (ns.set idx { getSlot ns idx with next := -1 }) idx).next = -1
        rw [getSlot_set_self ns idx _ hidxlen]
      | cons hd tl =>
        obtain ⟨hh, hhd, hrest⟩ := hseg
        subst hh
        have hX : (getN ns (idx : Int)).offset = (getSlot ns idx).offset := by
          simp [getN]
        have hhd' : (getN ns ((hd : Nat) : Int)).offset = (getSlot ns hd).offset := by
          simp [getN]
        rw [hX, hhd'] at hlt
        refine ⟨[], hd :: tl, rfl, ?_, hpres, by simp, ?_, by simp⟩
        · refine ⟨rfl, hidx, ?_⟩
          show chainSeg _ (getSlot (ns.set idx { getSlot ns idx with next := (hd : Int) }) idx).next
            (hd :: tl) (-1)
          rw [getSlot_set_self ns idx _ hidxlen]
          exact chainSeg_congr ns _ (hd :: tl) _ _ hcongr ⟨rfl, hhd, hrest⟩
        · intro j hj
          rcases List.mem_cons.mp hj with rfl | hj
          · exact hlt
          · have := (List.pairwise_cons.mp
              (pairwise_offset_lt ns (hd :: tl) hOK hg)).1 j hj
            omega
  · push_neg at hcond
    obtain ⟨hne, hle⟩ := hcond
    cases l with
    | nil =>
      exact absurd hseg hne
    | cons hd tl =>
      obtain ⟨hh, hhdlt, hrest⟩ := hseg
      have hX : (getN ns (idx : Int)).offset = (getSlot ns idx).offset := by
        simp [getN]
      have hhd' : (getN ns h).offset = (getSlot ns hd).offset := by
        rw [hh]; simp [getN]
      rw [hX, hhd'] at hle
      have hhdmem : hd ∈ hd :: tl := by simp
      have hhdfit := hfit hd hhdmem
      have hhdsz := (hOK hd hhdmem).2.1
      have hhdX : (getSlot ns hd).offset < (getSlot ns idx).offset := by
        rcases hhdfit with hca | hca
        · omega
        · omega
      have hside : ∀ j ∈ tl, (getSlot ns j).offset < (getSlot ns idx).offset ∨
          (getSlot ns idx).offset < (getSlot ns j).offset := by
        intro j hj
        have hjmem : j ∈ hd :: tl := by simp [hj]
        have := hfit j hjmem
        have := (hOK j hjmem).2.1
        omega
      have hlenle := length_le_max ns (hd :: tl) hOK hg
      obtain ⟨l1, l2, p, hsplit, hl1ne, h1, h2, hwalk, hlast⟩ :=
        findInsertPrev_split ns (getSlot ns idx).offset tl hd MAX_NODES
          ⟨rfl, hhdlt, hrest⟩ hhdX hside (pairwise_offset_lt ns (hd :: tl) hOK hg)
          (by simp at hlenle; omega)
      have hnodup := nodup_of_inv ns (hd :: tl) hOK hg
      rw [hsplit] at hnodup
      have hnodup1 : l1.Nodup := (List.nodup_append.mp hnodup).1
      have hdisj : l1.Disjoint l2 := (List.nodup_append.mp hnodup).2.2
      obtain ⟨hl1eq⟩ : ∃ _h : l1.dropLast ++ [p] = l1, True :=
        ⟨List.dropLast_append_getLast? p hlast, trivial⟩
      have hpmem : p ∈ l1 := by
        rw [← hl1eq]
        simp
      have hpmeml : p ∈ hd :: tl := by
        rw [hsplit]
        exact List.mem_append_left _ hpmem
      have hplt : p < MAX_NODES := (hOK p hpmeml).1
      have hplen : p < ns.length := by omega
      have hpidx : idx ≠ p := fun he => hnotin (he ▸ hpmeml)
      -- decompose the original segment
      have hseg' : chainSeg ns h ((hd :: tl)) (-1) := ⟨hh, hhdlt, hrest⟩
      rw [hsplit] at hseg'
      obtain ⟨hm, segL1, segL2⟩ := chainSeg_split ns l1 l2 h (-1) hseg'
      rw [← hl1eq] at segL1
      obtain ⟨h2i, segT, segP⟩ := chainSeg_split ns l1.dropLast [p] h hm segL1
      obtain ⟨hh2i, -, hpnextEq⟩ := segP
      have hpnext : (getSlot ns p).next = hm := hpnextEq
      -- the function's result in this branch
      have hwalk' : findInsertPrev ns (getN ns (idx : Int)).offset MAX_NODES h = (p : Int) := by
        rw [hX, hh]
        exact hwalk
      have heq : list_insert_sorted ns h (idx : Int) =
          ((ns.set idx { getSlot ns idx with next := hm }).set p
            { getSlot ns p with next := (idx : Int) }, h) := by
        unfold list_insert_sorted
        rw [if_neg]
        · show (let prev := findInsertPrev ns (getN ns (idx : Int)).offset MAX_NODES h
            let ns1 := ns.set (idx : Int).toNat
              { getN ns (idx : Int) with next := (getN ns prev).next }
            (ns1.set prev.toNat { getN ns1 prev with next := (idx : Int) }, h)) = _
          rw [hwalk']
          simp only [getN, Int.toNat_natCast]
          rw [hpnext]
          have : getSlot (ns.set idx { getSlot ns idx with next := hm }) p =
              getSlot ns p := getSlot_set_ne ns idx _ p hpidx
          rw [this]
        · intro hco
          rcases hco with hco | hco
          · exact hne hco
          · rw [hX, hhd'] at hco
            omega
      rw [heq]
      set nsF := (ns.set idx { getSlot ns idx with next := hm }).set p
        { getSlot ns p with next := (idx : Int) } with hnsF
      have hpresk : ∀ k, (getSlot nsF k).offset = (getSlot ns k).offset ∧
          (getSlot nsF k).size = (getSlot ns k).size := by
        intro k
        by_cases hk1 : p = k
        · subst hk1
          rw [hnsF, getSlot_set_self _ p _ (by simpa using hplen)]
          exact ⟨rfl, rfl⟩
        · rw [hnsF, getSlot_set_ne _ p _ k hk1]
          by_cases hk2 : idx = k
          · subst hk2
            rw [getSlot_set_self ns idx _ hidxlen]
            exact ⟨rfl, rfl⟩
          · rw [getSlot_set_ne ns idx _ k hk2]
            exact ⟨rfl, rfl⟩
      have hcongrT : ∀ j ∈ l1.dropLast, getSlot nsF j = getSlot ns j := by
        intro j hj
        have hjl1 : j ∈ l1 := by
          rw [← hl1eq]
          exact List.mem_append_left _ hj
        have hjne_p : p ≠ j := by
          intro he
          subst he
          have := (List.nodup_append.mp (hl1eq ▸ hnodup1)).2.2
          exact this hj (by simp)
        have hjne_idx : idx ≠ j := by
          intro he
          subst he
          exact hnotin (hsplit ▸ List.mem_append_left _ hjl1)
        rw [hnsF, getSlot_set_ne _ p _ j hjne_p, getSlot_set_ne ns idx _ j hjne_idx]
      have hcongrL2 : ∀ j ∈ l2, getSlot nsF j = getSlot ns j := by
        intro j hj
        have hjne_p : p ≠ j := by
          intro he
          subst he
          exact hdisj hpmem hj
        have hjne_idx : idx ≠ j := by
          intro he
          subst he
          exact hnotin (hsplit ▸ List.mem_append_right _ hj)
        rw [hnsF, getSlot_set_ne _ p _ j hjne_p, getSlot_set_ne ns idx _ j hjne_idx]
      refine ⟨l1, l2, hsplit, ?_, hpresk, h1, h2, by simp [hnsF]⟩
      -- assemble the new chain
      have segT' : chainSeg nsF h l1.dropLast (p : Int) := by
        rw [hh2i] at segT
        exact chainSeg_congr ns nsF l1.dropLast h _ hcongrT segT
      have segPnew : chainSeg nsF (p : Int) [p] (idx : Int) := by
        refine ⟨rfl, hplt, ?_⟩
        show (getSlot nsF p).next = (idx : Int)
        rw [hnsF, getSlot_set_self _ p _ (by simpa using hplen)]
      have segIdx : chainSeg nsF (idx : Int) (idx :: l2) (-1) := by
        refine ⟨rfl, hidx, ?_⟩
        show chainSeg nsF (getSlot nsF idx).next l2 (-1)
        have : getSlot nsF idx = { getSlot ns idx with next := hm } := by
          rw [hnsF, getSlot_set_ne _ p _ idx (fun he => hpidx he.symm),
            getSlot_set_self ns idx _ hidxlen]
        rw [this]
        exact chainSeg_congr ns nsF l2 hm _ hcongrL2 segL2
      have segL1new : chainSeg nsF h l1 (idx : Int) := by
        rw [← hl1eq]
        exact chainSeg_append nsF l1.dropLast [p] h _ _ segT' segPnew
      exact chainSeg_append nsF l1 (idx :: l2) h _ _ segL1new segIdx

theorem node_slot_alloc_spec (ns : List alloc_node_t) :
    node_slot_alloc ns = -1 ∨
    ∃ i : Nat, node_slot_alloc ns = (i : Int) ∧ i < MAX_NODES ∧ (getSlot ns i).size = 0 := by
  unfold node_slot_alloc
  cases hf : (List.range MAX_NODES).find? (fun i => (getSlot ns i).size == 0) with
  | none => exact Or.inl rfl
  | some i =>
    refine Or.inr ⟨i, rfl, ?_, ?_⟩
    · exact List.mem_range.mp (List.mem_of_find?_eq_some hf)
    · simpa using List.find?_some hf

theorem find_gap_neg_one (ns : List alloc_node_t) (req : Nat) (fuel : Nat) :
    find_gap ns req fuel (-1) = none := by
  cases fuel <;> simp [find_gap]

/-- Any offset produced by the gap scan is the end of some listed block, and
the request fits before the next listed block (or the arena end). -/
theorem find_gap_spec (ns : List alloc_node_t) (req : Nat) :
    ∀ (l : List Nat) (c : Nat) (fuel : Nat) (off : Nat),
    chainSeg ns (c : Int) (c :: l) (-1) →
    find_gap ns req fuel (c : Int) = some off →
    ∃ (l1 : List Nat) (j : Nat) (l2 : List Nat),
      c :: l = l1 ++ j :: l2 ∧
      off = (getSlot ns j).offset + (getSlot ns j).size ∧
      (l2 = [] → off + req ≤ TOTAL_MEMORY) ∧
      (∀ q t, l2 = q :: t → off + req ≤ (getSlot ns q).offset) := by
  intro l
  induction l with
  | nil =>
    intro c fuel off hseg hfg
    obtain ⟨-, -, hnx⟩ := hseg
    have hnx' : (getSlot ns c).next = -1 := hnx
    cases fuel with
    | zero => simp [find_gap] at hfg
    | succ fuel =>
      unfold find_gap at hfg
      rw [if_neg (show ¬((c : Int) = -1) by omega)] at hfg
      simp only [getN, Int.toNat_natCast] at hfg
      rw [hnx', if_pos rfl] at hfg
      by_cases hcnd : (getSlot ns c).offset + (getSlot ns c).size < TOTAL_MEMORY ∧
          req ≤ TOTAL_MEMORY - ((getSlot ns c).offset + (getSlot ns c).size)
      · rw [if_pos hcnd] at hfg
        have hoff := Option.some.inj hfg
        refine ⟨[], c, [], by simp, hoff.symm, fun _ => by omega, fun q t hqt => by cases hqt⟩
      · rw [if_neg hcnd, find_gap_neg_one] at hfg
        cases hfg
  | cons q t ih =>
    intro c fuel off hseg hfg
    obtain ⟨-, -, hnext⟩ := hseg
    obtain ⟨hcq, hqlt, hrest⟩ := hnext
    cases fuel with
    | zero => simp [find_gap] at hfg
    | succ fuel =>
      unfold find_gap at hfg
      rw [if_neg (show ¬((c : Int) = -1) by omega)] at hfg
      simp only [getN, Int.toNat_natCast] at hfg
      rw [hcq, if_neg (show ¬((q : Int) = -1) by omega)] at hfg
      simp only [Int.toNat_natCast] at hfg
      by_cases hcnd : (getSlot ns c).offset + (getSlot ns c).size < (getSlot ns q).offset ∧
          req ≤ (getSlot ns q).offset - ((getSlot ns c).offset + (getSlot ns c).size)
      · rw [if_pos hcnd] at hfg
        have hoff := Option.some.inj hfg
        refine ⟨[], c, q :: t, by simp, hoff.symm, fun hq => absurd hq (by simp), ?_⟩
        intro q' t' hqt
        cases hqt
        omega
      · rw [if_neg hcnd] at hfg
        obtain ⟨l1, j, l2, hsplit, hoff, hnil, hcons⟩ :=
          ih q fuel off ⟨rfl, hqlt, hrest⟩ hfg
        exact ⟨c :: l1, j, l2, by rw [List.cons_append, ← hsplit], hoff, hnil, hcons⟩

theorem gapSorted_congr (ns ns' : List alloc_node_t) (l : List Nat)
    (hsame : ∀ k, (getSlot ns' k).offset = (getSlot ns k).offset ∧
      (getSlot ns' k).size = (getSlot ns k).size)
    (hg : gapSorted ns l) : gapSorted ns' l := by
  refine List.Chain'.imp ?_ hg
  intro a b hab
  unfold slotR at *
  rw [(hsame a).1, (hsame a).2, (hsame b).1]
  exact hab

theorem nodesOK_congr (ns ns' : List alloc_node_t) (l : List Nat)
    (hsame : ∀ k, (getSlot ns' k).offset = (getSlot ns k).offset ∧
      (getSlot ns' k).size = (getSlot ns k).size)
    (hOK : nodesOK ns l) : nodesOK ns' l := by
  intro i hi
  obtain ⟨h1, h2, h3, h4⟩ := hOK i hi
  rw [(hsame i).1, (hsame i).2]
  exact ⟨h1, h2, h3, h4⟩

theorem gapSorted_congr_mem (ns ns' : List alloc_node_t) (l : List Nat)
    (hsame : ∀ j ∈ l, getSlot ns' j = getSlot ns j)
    (hg : gapSorted ns l) : gapSorted ns' l := by
  refine pairwise_gapSorted ns' l ?_
  refine ((gapSorted_pairwise ns l hg).imp_of_mem ?_)
  intro a b ha hb hab
  unfold slotR at *
  rw [hsame a ha, hsame b hb]
  exact hab

/-- Effect of `place`: either the metadata is exhausted and the state is
untouched, or the requested block is recorded and the invariant holds in the
new state. -/
theorem place_spec (ns : List alloc_node_t) (s : AllocState) (off req : Nat)
    (l : List Nat)
    (hlen : ns.length = MAX_NODES)
    (hchain : chainList ns (MAX_NODES + 1) s.head_index = some l)
    (hOK : nodesOK ns l) (hg : gapSorted ns l) (hlive : liveInChain ns l)
    (hfull : s.full_taken = false)
    (hreq : 0 < req)
    (hbase : NODE_POOL_BYTES ≤ off)
    (htot : off + req ≤ TOTAL_MEMORY)
    (hfit : ∀ j ∈ l, (getSlot ns j).offset + (getSlot ns j).size ≤ off ∨
      off + req ≤ (getSlot ns j).offset) :
    ((place ns s off req).1 = none ∧ (place ns s off req).2 = s) ∨
    ((place ns s off req).1 = some off ∧ AllocInv (place ns s off req).2 ∧
      (place ns s off req).2.node_pool ≠ none ∧
      (place ns s off req).2.head_index ≠ -1 ∧
      (place ns s off req).2.full_taken = s.full_taken) := by
  rcases node_slot_alloc_spec ns with hslot | ⟨i, hslot, hilt, hisz⟩
  · left
    constructor <;> simp [place, hslot]
  · right
    have hilen : i < ns.length := by omega
    have hnotin : i ∉ l := by
      intro him
      have := (hOK i him).2.1
      omega
    have heq : place ns s off req =
        (some off,
         { s with
           node_pool := some (list_insert_sorted
             (ns.set i { getSlot ns i with offset := off, size := req })
             s.head_index (i : Int)).1,
           head_index := (list_insert_sorted
             (ns.set i { getSlot ns i with offset := off, size := req })
             s.head_index (i : Int)).2 }) := by
      simp [place, hslot, getN, show ¬((i : Int) < 0) by omega]
    set ns1 := ns.set i { getSlot ns i with offset := off, size := req } with hns1
    have hcongr1 : ∀ j ∈ l, getSlot ns1 j = getSlot ns j := by
      intro j hj
      exact getSlot_set_ne ns i _ j (fun he => hnotin (he ▸ hj))
    have hself1 : getSlot ns1 i = { getSlot ns i with offset := off, size := req } :=
      getSlot_set_self ns i _ hilen
    obtain ⟨hseg0, hlen0⟩ := chainList_to_seg ns _ _ l hchain
    have hseg1 : chainSeg ns1 s.head_index l (-1) :=
      chainSeg_congr ns ns1 l _ _ hcongr1 hseg0
    have hOK1 : nodesOK ns1 l := by
      intro j hj
      rw [hcongr1 j hj]
      exact hOK j hj
    have hg1 : gapSorted ns1 l := gapSorted_congr_mem ns ns1 l hcongr1 hg
    have hlen1 : ns1.length = MAX_NODES := by
      rw [hns1]
      simpa using hlen
    have hfit1 : ∀ j ∈ l, (getSlot ns1 j).offset + (getSlot ns1 j).size ≤
        (getSlot ns1 i).offset ∨
        (getSlot ns1 i).offset + (getSlot ns1 i).size ≤ (getSlot ns1 j).offset := by
      intro j hj
      rw [hcongr1 j hj, hself1]
      exact hfit j hj
    have hsz1 : 0 < (getSlot ns1 i).size := by
      rw [hself1]
      exact hreq
    obtain ⟨l1, l2, hsplit, hsegN, hpres, h1, h2, hlenN⟩ :=
      list_insert_sorted_spec ns1 s.head_index l i hlen1 hseg1 hOK1 hg1 hilt hnotin
        hfit1 hsz1
    set r := list_insert_sorted ns1 s.head_index (i : Int) with hr
    have hOffI : (getSlot ns1 i).offset = off := by rw [hself1]
    have hSizeI : (getSlot ns1 i).size = req := by rw [hself1]
    have hmemN : ∀ j ∈ l1 ++ i :: l2, j = i ∨ j ∈ l := by
      intro j hj
      rcases List.mem_append.mp hj with hj | hj
      · exact Or.inr (hsplit ▸ List.mem_append_left _ hj)
      · rcases List.mem_cons.mp hj with rfl | hj
        · exact Or.inl rfl
        · exact Or.inr (hsplit ▸ List.mem_append_right _ hj)
    have hOKN1 : nodesOK ns1 (l1 ++ i :: l2) := by
      intro j hj
      rcases hmemN j hj with rfl | hj
      · rw [hOffI, hSizeI]
        exact ⟨hilt, hreq, hbase, htot⟩
      · exact hOK1 j hj
    have hOKN : nodesOK r.1 (l1 ++ i :: l2) := nodesOK_congr ns1 r.1 _ hpres hOKN1
    have hgN1 : gapSorted ns1 (l1 ++ i :: l2) := by
      refine pairwise_gapSorted _ _ (pairwise_insert_mid ns1 l1 l2 i ?_ ?_ ?_)
      · rw [← hsplit]
        exact gapSorted_pairwise ns1 l hg1
      · intro j hj
        have hjl : j ∈ l := hsplit ▸ List.mem_append_left _ hj
        unfold slotR
        rw [hOffI]
        rcases hfit j hjl with hc | hc
        · rw [hcongr1 j hjl]
          exact hc
        · have hjlt := h1 j hj
          rw [hOffI] at hjlt
          rw [hcongr1 j hjl] at hjlt ⊢
          omega
      · intro j hj
        have hjl : j ∈ l := hsplit ▸ List.mem_append_right _ hj
        unfold slotR
        rw [hOffI, hSizeI]
        rcases hfit j hjl with hc | hc
        · have hjgt := h2 j hj
          rw [hOffI] at hjgt
          rw [hcongr1 j hjl] at hjgt ⊢
          have := (hOK j hjl).2.1
          omega
        · rw [hcongr1 j hjl]
          exact hc
    have hgN : gapSorted r.1 (l1 ++ i :: l2) := gapSorted_congr ns1 r.1 _ hpres hgN1
    have hliveN : liveInChain r.1 (l1 ++ i :: l2) := by
      intro k hk hszk
      rw [(hpres k).2] at hszk
      by_cases hki : k = i
      · subst hki
        exact List.mem_append_right _ (by simp)
      · have hkns : (getSlot ns k).size ≠ 0 := by
          rw [← getSlot_set_ne ns i _ k (fun he => hki he.symm)]
          exact hszk
        have hkl : k ∈ l := hlive k hk hkns
        rcases List.mem_append.mp (hsplit ▸ hkl) with hk1 | hk2
        · exact List.mem_append_left _ hk1
        · exact List.mem_append_right _ (by simp [hk2])
    have hlenle : l.length ≤ MAX_NODES := length_le_max ns l hOK hg
    have hchainN : chainList r.1 (MAX_NODES + 1) r.2 = some (l1 ++ i :: l2) := by
      refine seg_to_chainList r.1 _ _ _ hsegN ?_
      have : (l1 ++ i :: l2).length = l.length + 1 := by
        rw [hsplit]
        simp
        omega
      omega
    have hheadN : r.2 ≠ -1 := by
      cases l1 with
      | nil =>
        obtain ⟨hh, -, -⟩ := hsegN
        omega
      | cons a as =>
        obtain ⟨hh, -, -⟩ := hsegN
        omega
    rw [heq]
    refine ⟨rfl, ?_, by simp, by simpa using hheadN, rfl⟩
    constructor
    · intro hco
      cases hco
    · intro ns0 hns0
      cases Option.some.inj hns0
      exact ⟨by rw [hlenN, hlen1], hfull, l1 ++ i :: l2, hchainN, hOKN, hgN, hliveN⟩

theorem getSlot_fresh (k : Nat) : getSlot freshPool k = ⟨0, 0, -1⟩ := by
  unfold getSlot freshPool
  by_cases hk : k < MAX_NODES
  · rw [List.get?_eq_get (by simpa using hk)]
    simp
  · rw [List.get?_eq_none.mpr (by simpa using Nat.le_of_not_lt hk)]
    rfl

theorem chainList_neg_one (ns : List alloc_node_t) (f : Nat) :
    chainList ns f (-1) = some [] := by
  cases f <;> simp [chainList]

theorem listInv_fresh : listInv freshPool (-1) := by
  refine ⟨[], chainList_neg_one freshPool _, ?_, ?_, ?_⟩
  · intro i hi
    cases hi
  · exact List.chain'_nil
  · intro k _ hk
    rw [getSlot_fresh k] at hk
    exact absurd rfl hk

theorem ensure_node_pool_spec (s : AllocState) (hinv : AllocInv s) :
    AllocInv (ensure_node_pool s) ∧
    (ensure_node_pool s).full_taken = s.full_taken ∧
    ((ensure_node_pool s).node_pool = s.node_pool ∨ s.node_pool = none) := by
  cases hp : s.node_pool with
  | some ns =>
    have he : ensure_node_pool s = s := by
      unfold ensure_node_pool
      rw [hp]
    rw [he]
    exact ⟨hinv, rfl, Or.inl hp⟩
  | none =>
    by_cases hf : s.full_taken
    · have he : ensure_node_pool s = s := by
        unfold ensure_node_pool
        rw [hp, if_pos hf]
      rw [he]
      exact ⟨hinv, rfl, Or.inr rfl⟩
    · have he : ensure_node_pool s =
          { s with node_pool := some freshPool, head_index := -1 } := by
        unfold ensure_node_pool
        rw [hp, if_neg hf, if_neg (by decide)]
      rw [he]
      refine ⟨⟨?_, ?_⟩, rfl, Or.inr rfl⟩
      · intro hco
        cases hco
      · intro ns0 hns0
        cases Option.some.inj hns0
        exact ⟨by simp [freshPool], by simpa using hf, listInv_fresh⟩

/-- Effect of the carved part of `allocate`: the invariant is preserved, the
pool stays carved, and any returned offset lies in the usable window. -/
theorem alloc_carved_spec (ns : List alloc_node_t) (s : AllocState) (req : Nat)
    (hpool : s.node_pool = some ns)
    (hinv : AllocInv s)
    (hreq : 0 < req) :
    AllocInv (alloc_carved ns s req).2 ∧
    (alloc_carved ns s req).2.node_pool ≠ none ∧
    (∀ off, (alloc_carved ns s req).1 = some off →
      NODE_POOL_BYTES ≤ off ∧ off + req ≤ TOTAL_MEMORY) := by
  obtain ⟨hlen, hfull, l, hchain, hOK, hg, hlive⟩ := hinv.2 ns hpool
  unfold alloc_carved
  by_cases hhead : s.head_index = -1
  · rw [if_pos hhead]
    rw [hhead, chainList_neg_one] at hchain
    have hl : l = [] := (Option.some.inj hchain).symm
    subst hl
    by_cases hfits : NODE_POOL_BYTES + req ≤ TOTAL_MEMORY
    · rw [if_pos hfits]
      rcases place_spec ns s NODE_POOL_BYTES req [] hlen (by rw [hhead, chainList_neg_one])
          hOK hg hlive hfull hreq (Nat.le_refl _) hfits
          (fun j hj => absurd hj (List.not_mem_nil j)) with
        ⟨hres, hst⟩ | ⟨hres, hInv, hpoolN, -, -⟩
      · refine ⟨by rwa [hst], by rw [hst, hpool]; simp, ?_⟩
        intro off hoff
        rw [hres] at hoff
        cases hoff
      · refine ⟨hInv, hpoolN, ?_⟩
        intro off hoff
        rw [hres] at hoff
        cases Option.some.inj hoff
        exact ⟨Nat.le_refl _, hfits⟩
    · rw [if_neg hfits]
      refine ⟨hinv, by rw [hpool]; simp, ?_⟩
      intro off hoff
      cases hoff
  · rw [if_neg hhead]
    obtain ⟨hseg, hlenle'⟩ := chainList_to_seg ns _ _ l hchain
    cases l with
    | nil =>
      exact absurd hseg hhead
    | cons hd tl =>
      obtain ⟨hh, hhdlt, hrest⟩ := hseg
      have hpw := gapSorted_pairwise ns (hd :: tl) hg
      have hoffle : ∀ j ∈ hd :: tl, (getSlot ns hd).offset ≤ (getSlot ns j).offset := by
        intro j hj
        rcases List.mem_cons.mp hj with rfl | hj
        · exact Nat.le_refl _
        · have := (List.pairwise_cons.mp hpw).1 j hj
          unfold slotR at this
          omega
      have hNoff : (getN ns s.head_index).offset = (getSlot ns hd).offset := by
        rw [hh]
        simp [getN]
      by_cases hcase2 : NODE_POOL_BYTES + req ≤ (getN ns s.head_index).offset
      · rw [if_pos hcase2]
        rw [hNoff] at hcase2
        have hhdtot := (hOK hd (by simp)).2.2.2
        rcases place_spec ns s NODE_POOL_BYTES req (hd :: tl) hlen hchain
            hOK hg hlive hfull hreq (Nat.le_refl _) (by omega)
            (fun j hj => Or.inr (by have := hoffle j hj; omega)) with
          ⟨hres, hst⟩ | ⟨hres, hInv, hpoolN, -, -⟩
        · refine ⟨by rwa [hst], by rw [hst, hpool]; simp, ?_⟩
          intro off hoff
          rw [hres] at hoff
          cases hoff
        · refine ⟨hInv, hpoolN, ?_⟩
          intro off hoff
          rw [hres] at hoff
          cases Option.some.inj hoff
          exact ⟨Nat.le_refl _, by omega⟩
      · rw [if_neg hcase2]
        cases hfg : find_gap ns req (MAX_NODES + 1) s.head_index with
        | none =>
          refine ⟨hinv, by rw [hpool]; simp, ?_⟩
          intro off hoff
          cases hoff
        | some off =>
          rw [hh] at hfg
          obtain ⟨l1, j, l2, hsplit, hoff, hnil, hcons⟩ :=
            find_gap_spec ns req tl hd (MAX_NODES + 1) off ⟨rfl, hhdlt, hrest⟩ hfg
          have hjmem : j ∈ hd :: tl := by
            rw [hsplit]
            exact List.mem_append_right _ (by simp)
          have hjOK := hOK j hjmem
          have hbase : NODE_POOL_BYTES ≤ off := by
            rw [hoff]
            omega
          have htot : off + req ≤ TOTAL_MEMORY := by
            cases hl2 : l2 with
            | nil => exact hnil hl2
            | cons q t =>
              have hq : off + req ≤ (getSlot ns q).offset := hcons q t hl2
              have hqmem : q ∈ hd :: tl := by
                rw [hsplit, hl2]
                exact List.mem_append_right _ (by simp)
              have := (hOK q hqmem).2.2.2
              omega
          have hfit : ∀ m ∈ hd :: tl,
              (getSlot ns m).offset + (getSlot ns m).size ≤ off ∨
              off + req ≤ (getSlot ns m).offset := by
            intro m hm
            rw [hsplit] at hm hpw
            rcases List.mem_append.mp hm with hm1 | hm2
            · left
              have := (List.pairwise_append.mp hpw).2.2 m hm1 j (by simp)
              unfold slotR at this
              omega
            · rcases List.mem_cons.mp hm2 with rfl | hm2
              · left
                omega
              · right
                cases hl2 : l2 with
                | nil =>
                  rw [hl2] at hm2
                  cases hm2
                | cons q t =>
                  have hq : off + req ≤ (getSlot ns q).offset := hcons q t hl2
                  rw [hl2] at hm2
                  rcases List.mem_cons.mp hm2 with rfl | hm2
                  · exact hq
                  · have hpw2 : (j :: l2).Pairwise (slotR ns) :=
                      (List.pairwise_append.mp hpw).2.1
                    rw [hl2] at hpw2
                    have := (List.pairwise_cons.mp
                      (List.pairwise_cons.mp hpw2).2).1 m hm2
                    unfold slotR at this
                    omega
          rcases place_spec ns s off req (hd :: tl) hlen hchain
              hOK hg hlive hfull hreq hbase htot hfit with
            ⟨hres, hst⟩ | ⟨hres, hInv, hpoolN, -, -⟩
          · refine ⟨by rwa [hst], by rw [hst, hpool]; simp, ?_⟩
            intro off' hoff'
            rw [hres] at hoff'
            cases hoff'
          · refine ⟨hInv, hpoolN, ?_⟩
            intro off' hoff'
            rw [hres] at hoff'
            cases Option.some.inj hoff'
            exact ⟨hbase, htot⟩

/-- Master specification of `allocate`: the invariant is preserved, and every
successful allocation is either the whole-arena block at offset 0 (pool
absent) or a block inside the usable window (pool carved). -/
theorem allocate_spec (s : AllocState) (hinv : AllocInv s) (n : Int) :
    AllocInv (allocate n s).2 ∧
    (∀ off, (allocate n s).1 = some off →
      (off = 0 ∧ (allocate n s).2.node_pool = none) ∨
      (NODE_POOL_BYTES ≤ off ∧ off + n.toNat ≤ TOTAL_MEMORY ∧
        (allocate n s).2.node_pool ≠ none)) := by
  unfold allocate
  by_cases hn : n ≤ 0
  · rw [if_pos hn]
    exact ⟨hinv, fun off hoff => by cases hoff⟩
  · rw [if_neg hn]
    by_cases hTot : n.toNat = TOTAL_MEMORY
    · rw [if_pos hTot]
      by_cases hguard : s.full_taken = true ∨ s.node_pool ≠ none ∨ s.head_index ≠ -1
      · rw [if_pos hguard]
        exact ⟨hinv, fun off hoff => by cases hoff⟩
      · rw [if_neg hguard]
        push_neg at hguard
        obtain ⟨hfull, hpool, hhead⟩ := hguard
        constructor
        · constructor
          · intro _
            exact hhead
          · intro ns0 hns0
            have hco : s.node_pool = some ns0 := hns0
            rw [hpool] at hco
            cases hco
        · intro off hoff
          cases Option.some.inj hoff
          exact Or.inl ⟨rfl, hpool⟩
    · rw [if_neg hTot]
      by_cases hfull : s.full_taken = true
      · rw [if_pos hfull]
        exact ⟨hinv, fun off hoff => by cases hoff⟩
      · rw [if_neg hfull]
        obtain ⟨hinvE, -, -⟩ := ensure_node_pool_spec s hinv
        cases hE : (ensure_node_pool s).node_pool with
        | none =>
          refine ⟨hinvE, ?_⟩
          intro off hoff
          simp at hoff
        | some ns =>
          obtain ⟨hI, hpoolN, hwin⟩ :=
            alloc_carved_spec ns (ensure_node_pool s) n.toNat hE hinvE (by omega)
          exact ⟨hI, fun off hoff =>
            Or.inr ⟨(hwin off hoff).1, (hwin off hoff).2, hpoolN⟩⟩

theorem list_remove_go_notfound (ns : List alloc_node_t) (off : Nat) (h : Int) :
    ∀ (lrest : List Nat) (fuel : Nat) (prev cur : Int),
    chainSeg ns cur lrest (-1) →
    lrest.length < fuel →
    (∀ j ∈ lrest, (getSlot ns j).offset ≠ off) →
    list_remove_go ns off h fuel prev cur = (-1, ns, h) := by
  intro lrest
  induction lrest with
  | nil =>
    intro fuel prev cur hseg hfuel _
    have hcur : cur = -1 := hseg
    cases fuel with
    | zero => omega
    | succ fuel =>
      unfold list_remove_go
      rw [if_pos hcur]
  | cons a t ih =>
    intro fuel prev cur hseg hfuel hnm
    obtain ⟨hh, halt, hrest⟩ := hseg
    cases fuel with
    | zero => simp at hfuel
    | succ fuel =>
      unfold list_remove_go
      rw [hh]
      rw [if_neg (by omega)]
      simp only [getN, Int.toNat_natCast]
      rw [if_neg (hnm a (by simp))]
      exact ih fuel (a : Int) _ hrest (by simpa using Nat.succ_lt_succ_iff.mp hfuel)
        (fun j hj => hnm j (by simp [hj]))

theorem first_match_decomp (P : Nat → Prop) [DecidablePred P] :
    ∀ (l : List Nat), (∃ j ∈ l, P j) →
    ∃ l1 c l2, l = l1 ++ c :: l2 ∧ (∀ j ∈ l1, ¬ P j) ∧ P c := by
  intro l
  induction l with
  | nil =>
    rintro ⟨j, hj, -⟩
    cases hj
  | cons a t ih =>
    intro hex
    by_cases ha : P a
    · exact ⟨[], a, t, rfl, by simp, ha⟩
    · obtain ⟨j, hj, hPj⟩ := hex
      rcases List.mem_cons.mp hj with rfl | hj
      · exact absurd hPj ha
      · obtain ⟨l1, c, l2, hsp, hnm, hPc⟩ := ih ⟨j, hj, hPj⟩
        refine ⟨a :: l1, c, l2, by rw [hsp]; rfl, ?_, hPc⟩
        intro m hm
        rcases List.mem_cons.mp hm with rfl | hm
        · exact ha
        · exact hnm m hm

/-- The removal walk, once past the head: hitting the first match `c` after a
clean prefix `t`, it unlinks `c` by rewiring the predecessor (the last node
of `p :: t`) and clearing `c`'s link. -/
theorem list_remove_go_inner (ns : List alloc_node_t) (off : Nat) (h : Int) :
    ∀ (t : List Nat) (p c : Nat) (l2 : List Nat) (fuel : Nat),
    chainSeg ns (getSlot ns p).next (t ++ c :: l2) (-1) →
    (∀ j ∈ t, (getSlot ns j).offset ≠ off) →
    (getSlot ns c).offset = off →
    (p :: (t ++ c :: l2)).Nodup →
    t.length < fuel →
    ∃ pl : Nat, (p :: t).getLast? = some pl ∧
      list_remove_go ns off h fuel (p : Int) (getSlot ns p).next =
        ((c : Int),
         (ns.set pl { getSlot ns pl with next := (getSlot ns c).next }).set c
           { getSlot ns c with next := -1 },
         h) := by
  intro t
  induction t with
  | nil =>
    intro p c l2 fuel hseg hnm hc hnd hfuel
    obtain ⟨hh, hclt, hrest⟩ := hseg
    have hpc : p ≠ c := by
      intro he
      subst he
      have := (List.pairwise_cons.mp hnd).1 p (by simp)
      exact this rfl
    cases fuel with
    | zero => omega
    | succ fuel =>
      refine ⟨p, by simp, ?_⟩
      unfold list_remove_go
      rw [hh]
      rw [if_neg (by omega)]
      simp only [getN, Int.toNat_natCast]
      rw [if_pos hc]
      rw [if_neg (show ¬((p : Int) = -1) by omega)]
      simp only [Int.toNat_natCast]
      rw [getSlot_set_ne ns p _ c hpc]
  | cons a t' ih =>
    intro p c l2 fuel hseg hnm hc hnd hfuel
    obtain ⟨hh, halt, hrest⟩ := hseg
    cases fuel with
    | zero => simp at hfuel
    | succ fuel =>
      obtain ⟨pl, hpl, heq⟩ := ih a c l2 fuel hrest
        (fun j hj => hnm j (by simp [hj]))
        hc ((List.pairwise_cons.mp hnd).2)
        (by simpa using Nat.succ_lt_succ_iff.mp hfuel)
      refine ⟨pl, ?_, ?_⟩
      · rw [List.getLast?_cons_cons]
        exact hpl
      · unfold list_remove_go
        rw [hh]
        rw [if_neg (by omega)]
        simp only [getN, Int.toNat_natCast]
        rw [if_neg (hnm a (by simp))]
        exact heq

/-- Specification of `list_remove_by_offset` on a well-formed chain: either
no listed block starts at `off` and nothing changes, or the first (unique)
such block is unlinked, with only `next` fields rewired. -/
theorem list_remove_by_offset_spec (ns : List alloc_node_t) (h : Int) (off : Nat)
    (l : List Nat)
    (hlen : ns.length = MAX_NODES)
    (hseg : chainSeg ns h l (-1))
    (hnodup : l.Nodup)
    (hlenle : l.length ≤ MAX_NODES) :
    ((∀ j ∈ l, (getSlot ns j).offset ≠ off) ∧
      list_remove_by_offset ns h off = (-1, ns, h)) ∨
    (∃ (l1 : List Nat) (c : Nat) (l2 : List Nat) (ns' : List alloc_node_t) (h' : Int),
      l = l1 ++ c :: l2 ∧ (getSlot ns c).offset = off ∧ c < MAX_NODES ∧
      list_remove_by_offset ns h off = ((c : Int), ns', h') ∧
      chainSeg ns' h' (l1 ++ l2) (-1) ∧
      (∀ k, (getSlot ns' k).offset = (getSlot ns k).offset ∧
            (getSlot ns' k).size = (getSlot ns k).size) ∧
      ns'.length = ns.length) := by
  by_cases hex : ∃ j ∈ l, (getSlot ns j).offset = off
  · right
    obtain ⟨l1, c, l2, hsplit, hnm, hc⟩ :=
      first_match_decomp (fun j => (getSlot ns j).offset = off) l hex
    have hmemlt := chainSeg_mem_lt ns l h (-1) hseg
    have hclt : c < MAX_NODES := hmemlt c (by rw [hsplit]; simp)
    have hclen : c < ns.length := by omega
    rw [hsplit] at hseg hnodup
    cases l1 with
    | nil =>
      obtain ⟨hh, -, hrest⟩ := hseg
      subst hh
      have hcnotin : c ∉ l2 := by
        have := (List.pairwise_cons.mp hnodup).1
        intro hmem
        exact this c hmem rfl
      refine ⟨[], c, l2, ns.set c { getSlot ns c with next := -1 },
        (getSlot ns c).next, hsplit, hc, hclt, ?_, ?_, ?_, by simp⟩
      · unfold list_remove_by_offset list_remove_go
        rw [if_neg (by omega)]
        simp only [getN, Int.toNat_natCast]
        rw [if_pos hc]
        simp
      · show chainSeg _ (getSlot ns c).next ([] ++ l2) (-1)
        refine chainSeg_congr ns _ ([] ++ l2) _ _ ?_ hrest
        intro j hj
        exact getSlot_set_ne ns c _ j (fun he => hcnotin (he ▸ (by simpa using hj)))
      · intro k
        by_cases hk : c = k
        · subst hk
          rw [getSlot_set_self ns c _ hclen]
          exact ⟨rfl, rfl⟩
        · rw [getSlot_set_ne ns c _ k hk]
          exact ⟨rfl, rfl⟩
    | cons hd t =>
      obtain ⟨hh, hhdlt, hrest⟩ := hseg
      subst hh
      have hnd' : (hd :: (t ++ c :: l2)).Nodup := by simpa using hnodup
      obtain ⟨pl, hpl, heq⟩ := list_remove_go_inner ns off ((hd : Nat) : Int)
        t hd c l2 MAX_NODES hrest
        (fun j hj => hnm j (by simp [hj]))
        hc hnd'
        (by
          have hll : (hd :: t ++ c :: l2).length ≤ MAX_NODES := by
            rw [← hsplit]
            exact hlenle
          simp at hll
          omega)
      -- identify pl inside hd :: t
      have hpl_eq : (hd :: t).getLast? = some pl := hpl
      have hl1dec : (hd :: t).dropLast ++ [pl] = hd :: t :=
        List.dropLast_append_getLast? pl hpl_eq
      have hplmem : pl ∈ hd :: t := by
        rw [← hl1dec]
        exact List.mem_append_right _ (by simp)
      have hplmeml : pl ∈ hd :: t ++ c :: l2 := by
        rcases List.mem_cons.mp hplmem with rfl | hm
        · simp
        · simp [List.mem_append_left _ hm]
      have hpllt : pl < MAX_NODES := hmemlt pl (by rw [hsplit]; simpa using hplmeml)
      have hpllen : pl < ns.length := by omega
      have hndapp0 : ((hd :: t) ++ c :: l2).Nodup := by simpa using hnd'
      have hdisj0 : (hd :: t).Disjoint (c :: l2) := (List.nodup_append.mp hndapp0).2.2
      have hplc : pl ≠ c := by
        intro he
        exact hdisj0 hplmem (by simp [he])
      set ns' := (ns.set pl { getSlot ns pl with next := (getSlot ns c).next }).set c
        { getSlot ns c with next := -1 } with hns'
      refine ⟨hd :: t, c, l2, ns', ((hd : Nat) : Int), hsplit, hc, hclt, ?_, ?_, ?_, by simp [hns']⟩
      · unfold list_remove_by_offset list_remove_go
        rw [if_neg (by omega)]
        simp only [getN, Int.toNat_natCast]
        rw [if_neg (hnm hd (by simp))]
        exact heq
      · -- rebuild the chain (hd :: t) ++ l2 in ns'
        have hndapp : ((hd :: t) ++ c :: l2).Nodup := by simpa using hnd'
        have hnd1 : (hd :: t).Nodup := (List.nodup_append.mp hndapp).1
        have hdisj : (hd :: t).Disjoint (c :: l2) := (List.nodup_append.mp hndapp).2.2
        have hsegFull : chainSeg ns ((hd : Nat) : Int) ((hd :: t) ++ c :: l2) (-1) :=
          ⟨rfl, hhdlt, hrest⟩
        obtain ⟨hm, segL1, segL2⟩ := chainSeg_split ns (hd :: t) (c :: l2) _ _ hsegFull
        obtain ⟨hmc, -, hrestc⟩ := segL2
        subst hmc
        rw [← hl1dec] at segL1
        obtain ⟨h2i, segT, segP⟩ := chainSeg_split ns (hd :: t).dropLast [pl] _ _ segL1
        obtain ⟨hh2i, -, hplnext⟩ := segP
        have hplnext' : (getSlot ns pl).next = ((c : Nat) : Int) := hplnext
        have hcongrT : ∀ j ∈ (hd :: t).dropLast, getSlot ns' j = getSlot ns j := by
          intro j hj
          have hjl1 : j ∈ hd :: t := by
            rw [← hl1dec]
            exact List.mem_append_left _ hj
          have hjpl : pl ≠ j := by
            intro he
            have hnd2 : ((hd :: t).dropLast ++ [pl]).Nodup := by
              rw [hl1dec]
              exact hnd1
            exact (List.nodup_append.mp hnd2).2.2 hj (by simp [he])
          have hjc : c ≠ j := by
            intro he
            exact hdisj (he.symm ▸ hjl1) (by simp)
          rw [hns', getSlot_set_ne _ c _ j hjc, getSlot_set_ne ns pl _ j hjpl]
        have hcongrL2 : ∀ j ∈ l2, getSlot ns' j = getSlot ns j := by
          intro j hj
          have hjpl : pl ≠ j := by
            intro he
            exact hdisj hplmem (by simp [he, hj])
          have hjc : c ≠ j := by
            intro he
            exact (List.pairwise_cons.mp (List.nodup_append.mp hndapp).2.1).1 j hj he
          rw [hns', getSlot_set_ne _ c _ j hjc, getSlot_set_ne ns pl _ j hjpl]
        have segT' : chainSeg ns' ((hd : Nat) : Int) (hd :: t).dropLast ((pl : Nat) : Int) := by
          rw [hh2i] at segT
          exact chainSeg_congr ns ns' _ _ _ hcongrT segT
        have segPl : chainSeg ns' ((pl : Nat) : Int) [pl] (getSlot ns c).next := by
          refine ⟨rfl, hpllt, ?_⟩
          show (getSlot ns' pl).next = (getSlot ns c).next
          rw [hns', getSlot_set_ne _ c _ pl (fun he => hplc he.symm),
            getSlot_set_self ns pl _ hpllen]
        have segL2' : chainSeg ns' (getSlot ns c).next l2 (-1) :=
          chainSeg_congr ns ns' l2 _ _ hcongrL2 hrestc
        have segAll : chainSeg ns' ((hd : Nat) : Int)
            ((hd :: t).dropLast ++ [pl] ++ l2) (-1) :=
          chainSeg_append ns' _ l2 _ _ _
            (chainSeg_append ns' _ [pl] _ _ _ segT' segPl) segL2'
        rw [hl1dec] at segAll
        exact segAll
      · intro k
        by_cases hk1 : c = k
        · subst hk1
          rw [hns', getSlot_set_self _ c _ (by simpa using hclen)]
          exact ⟨rfl, rfl⟩
        · rw [hns', getSlot_set_ne _ c _ k hk1]
          by_cases hk2 : pl = k
          · subst hk2
            rw [getSlot_set_self ns pl _ hpllen]
            exact ⟨rfl, rfl⟩
          · rw [getSlot_set_ne ns pl _ k hk2]
            exact ⟨rfl, rfl⟩
  · left
    push_neg at hex
    refine ⟨hex, ?_⟩
    unfold list_remove_by_offset
    exact list_remove_go_notfound ns off h l (MAX_NODES + 1) (-1) h hseg
      (by omega) hex

theorem deallocate_carved_eq (s : AllocState) (ns : List alloc_node_t) (d : Int)
    (hp : s.node_pool = some ns)
    (h0 : ¬(d < 0 ∨ (TOTAL_MEMORY : Int) ≤ d))
    (hnf : ¬(s.full_taken = true ∧ d = 0)) :
    deallocate (.addr d) s =
      (let r := list_remove_by_offset ns s.head_index d.toNat
       let s1 : AllocState := { s with node_pool := some r.2.1, head_index := r.2.2 }
       if r.1 < 0 then s1
       else
         let ns2 := r.2.1.set r.1.toNat { getN r.2.1 r.1 with offset := 0, size := 0 }
         let s2 : AllocState := { s with node_pool := some ns2, head_index := r.2.2 }
         if r.2.2 = -1 then try_uncarve_when_empty s2 else s2) := by
  show (if d < 0 ∨ (TOTAL_MEMORY : Int) ≤ d then s
    else if s.full_taken = true ∧ d = 0 then { s with full_taken := false }
    else match s.node_pool with
      | none => s
      | some ns =>
        let r := list_remove_by_offset ns s.head_index d.toNat
        let s1 : AllocState := { s with node_pool := some r.2.1, head_index := r.2.2 }
        if r.1 < 0 then s1
        else
          let ns2 := r.2.1.set r.1.toNat { getN r.2.1 r.1 with offset := 0, size := 0 }
          let s2 : AllocState := { s with node_pool := some ns2, head_index := r.2.2 }
          if r.2.2 = -1 then try_uncarve_when_empty s2 else s2) = _
  rw [if_neg h0, if_neg hnf, hp]

/-- `deallocate` preserves the allocator invariant. -/
theorem deallocate_spec (s : AllocState) (hinv : AllocInv s) (p : Ptr) :
    AllocInv (deallocate p s) := by
  cases p with
  | null => exact hinv
  | addr d =>
    by_cases h0 : d < 0 ∨ (TOTAL_MEMORY : Int) ≤ d
    · have he : deallocate (.addr d) s = s := by
        show (if d < 0 ∨ (TOTAL_MEMORY : Int) ≤ d then s else _) = s
        rw [if_pos h0]
      rw [he]
      exact hinv
    · by_cases hnf : s.full_taken = true ∧ d = 0
      · have he : deallocate (.addr d) s = { s with full_taken := false } := by
          show (if d < 0 ∨ (TOTAL_MEMORY : Int) ≤ d then s
            else if s.full_taken = true ∧ d = 0 then { s with full_taken := false }
            else _) = _
          rw [if_neg h0, if_pos hnf]
        rw [he]
        refine ⟨?_, ?_⟩
        · intro hno
          exact hinv.1 hno
        · intro ns0 hns0
          obtain ⟨hlen, -, hli⟩ := hinv.2 ns0 hns0
          exact ⟨hlen, rfl, hli⟩
      · cases hp : s.node_pool with
        | none =>
          have he : deallocate (.addr d) s = s := by
            show (if d < 0 ∨ (TOTAL_MEMORY : Int) ≤ d then s
              else if s.full_taken = true ∧ d = 0 then { s with full_taken := false }
              else match s.node_pool with
                | none => s
                | some ns =>
                  let r := list_remove_by_offset ns s.head_index d.toNat
                  let s1 : AllocState := { s with node_pool := some r.2.1, head_index := r.2.2 }
                  if r.1 < 0 then s1
                  else
                    let ns2 := r.2.1.set r.1.toNat
                      { getN r.2.1 r.1 with offset := 0, size := 0 }
                    let s2 : AllocState :=
                      { s with node_pool := some ns2, head_index := r.2.2 }
                    if r.2.2 = -1 then try_uncarve_when_empty s2 else s2) = s
            rw [if_neg h0, if_neg hnf, hp]
          rw [he]
          exact hinv
        | some ns =>
          rw [deallocate_carved_eq s ns d hp h0 hnf]
          obtain ⟨hlen, hfull, l, hchain, hOK, hg, hlive⟩ := hinv.2 ns hp
          obtain ⟨hseg0, -⟩ := chainList_to_seg ns _ _ l hchain
          have hnodup := nodup_of_inv ns l hOK hg
          have hlenle := length_le_max ns l hOK hg
          rcases list_remove_by_offset_spec ns s.head_index d.toNat l hlen hseg0
              hnodup hlenle with
            ⟨hnm, heq⟩ | ⟨l1, c, l2, ns', h', hsplit, hc, hclt, heq, hsegN, hpres, hlenN⟩
          · simp only [heq]
            rw [if_pos (by omega)]
            refine ⟨?_, ?_⟩
            · intro hno
              cases hno
            · intro ns0 hns0
              cases Option.some.inj hns0
              exact ⟨hlen, hfull, l, hchain, hOK, hg, hlive⟩
          · simp only [heq]
            rw [if_neg (by omega)]
            simp only [getN, Int.toNat_natCast]
            have hcnot : c ∉ l1 ++ l2 := by
              rw [hsplit] at hnodup
              have hperm := (List.nodup_append.mp hnodup)
              intro hmem
              rcases List.mem_append.mp hmem with hm | hm
              · exact hperm.2.2 hm (by simp)
              · exact (List.pairwise_cons.mp hperm.2.1).1 c hm rfl
            set ns2 := ns'.set c { getSlot ns' c with offset := 0, size := 0 } with hns2
            have hcongr2 : ∀ j ∈ l1 ++ l2, getSlot ns2 j = getSlot ns' j := by
              intro j hj
              exact getSlot_set_ne ns' c _ j (fun he => hcnot (he ▸ hj))
            have hsubmem : ∀ j ∈ l1 ++ l2, j ∈ l := by
              intro j hj
              rw [hsplit]
              rcases List.mem_append.mp hj with hm | hm
              · exact List.mem_append_left _ hm
              · exact List.mem_append_right _ (by simp [hm])
            have hOK2 : nodesOK ns2 (l1 ++ l2) := by
              intro j hj
              rw [hcongr2 j hj, (hpres j).1, (hpres j).2]
              exact hOK j (hsubmem j hj)
            have hsub : (l1 ++ l2).Sublist l := by
              rw [hsplit]
              exact List.Sublist.append_left (List.sublist_cons_self c l2) l1
            have hg2 : gapSorted ns2 (l1 ++ l2) := by
              refine pairwise_gapSorted _ _ ?_
              have hpw : (l1 ++ l2).Pairwise (slotR ns) :=
                (gapSorted_pairwise ns l hg).sublist hsub
              refine hpw.imp_of_mem ?_
              intro a b ha hb hab
              unfold slotR at *
              rw [hcongr2 a ha, hcongr2 b hb, (hpres a).1, (hpres a).2, (hpres b).1]
              exact hab
            have hlive2 : liveInChain ns2 (l1 ++ l2) := by
              intro k hk hsz
              by_cases hkc : k = c
              · subst hkc
                rw [hns2, getSlot_set_self ns' k _ (by rw [hlenN, hlen]; omega)] at hsz
                exact absurd rfl hsz
              · have : (getSlot ns k).size ≠ 0 := by
                  rw [← (hpres k).2, ← getSlot_set_ne ns' c _ k (fun he => hkc he.symm)]
                  exact hsz
                have hkl := hlive k hk this
                rw [hsplit] at hkl
                rcases List.mem_append.mp hkl with hm | hm
                · exact List.mem_append_left _ hm
                · rcases List.mem_cons.mp hm with rfl | hm
                  · exact absurd rfl hkc
                  · exact List.mem_append_right _ hm
            have hseg2 : chainSeg ns2 h' (l1 ++ l2) (-1) :=
              chainSeg_congr ns' ns2 (l1 ++ l2) _ _ hcongr2 hsegN
            have hchain2 : chainList ns2 (MAX_NODES + 1) h' = some (l1 ++ l2) := by
              refine seg_to_chainList ns2 _ _ _ hseg2 ?_
              have h1 : (l1 ++ l2).length ≤ l.length := hsub.length_le
              omega
            have hlen2 : ns2.length = MAX_NODES := by
              rw [hns2]
              simp [hlenN, hlen]
            by_cases hh' : h' = -1
            · rw [if_pos hh']
              unfold try_uncarve_when_empty
              rw [if_neg (by simpa using hh')]
              refine ⟨?_, ?_⟩
              · intro _
                exact hh'
              · intro ns0 hns0
                cases hns0
            · rw [if_neg hh']
              refine ⟨?_, ?_⟩
              · intro hno
                cases hno
              · intro ns0 hns0
                cases Option.some.inj hns0
                exact ⟨hlen2, hfull, l1 ++ l2, hchain2, hOK2, hg2, hlive2⟩

/-- Every reachable allocator state satisfies the invariant. -/
theorem reachable_inv (s : AllocState) (hs : Reachable s) : AllocInv s := by
  induction hs with
  | init =>
    exact ⟨fun _ => rfl, fun ns0 hns0 => by cases hns0⟩
  | step_alloc n _ ih => exact (allocate_spec _ ih n).1
  | step_dealloc p _ ih => exact deallocate_spec _ ih p

theorem reachable_runOpsFrom (ops : List Op) :
    ∀ s, Reachable s → Reachable (runOpsFrom s ops) := by
  induction ops with
  | nil => intro s hs; exact hs
  | cons op ops ih =>
    intro s hs
    cases op with
    | alloc n => exact ih _ (Reachable.step_alloc n hs)
    | dealloc p => exact ih _ (Reachable.step_dealloc p hs)

theorem reachable_runOps (ops : List Op) : Reachable (runOps ops) :=
  reachable_runOpsFrom ops initState Reachable.init

theorem ensure_full_eq (s : AllocState) :
    (ensure_node_pool s).full_taken = s.full_taken := by
  unfold ensure_node_pool
  cases hnp : s.node_pool with
  | some ns => rfl
  | none =>
    split
    · rfl
    · split
      · rfl
      · rfl

theorem place_eq_of_slot_neg (ns : List alloc_node_t) (s : AllocState) (off req : Nat)
    (hidx : node_slot_alloc ns < 0) : place ns s off req = (none, s) := by
  unfold place
  rw [if_pos hidx]

theorem place_fst_of_slot (ns : List alloc_node_t) (s : AllocState) (off req : Nat)
    (hidx : ¬(node_slot_alloc ns < 0)) : (place ns s off req).1 = some off := by
  simp [place, hidx]

theorem place_full_eq (ns : List alloc_node_t) (s : AllocState) (off req : Nat) :
    (place ns s off req).2.full_taken = s.full_taken := by
  by_cases hidx : node_slot_alloc ns < 0
  · rw [place_eq_of_slot_neg ns s off req hidx]
  · simp [place, hidx]

theorem alloc_carved_full_eq (ns : List alloc_node_t) (s : AllocState) (req : Nat) :
    (alloc_carved ns s req).2.full_taken = s.full_taken := by
  unfold alloc_carved
  split
  · split
    · exact place_full_eq ns s _ req
    · rfl
  · split
    · exact place_full_eq ns s _ req
    · split
      · exact place_full_eq ns s _ req
      · rfl

theorem allocate_full_unchanged (s : AllocState) (n : Int)
    (hcond : s.node_pool ≠ none ∨ s.head_index ≠ -1) :
    (allocate n s).2.full_taken = s.full_taken := by
  unfold allocate
  by_cases hn : n ≤ 0
  · rw [if_pos hn]
  · rw [if_neg hn]
    by_cases hT : n.toNat = TOTAL_MEMORY
    · rw [if_pos hT]
      rw [if_pos (Or.inr hcond)]
    · rw [if_neg hT]
      by_cases hful : s.full_taken = true
      · rw [if_pos hful]
      · rw [if_neg hful]
        cases hE : (ensure_node_pool s).node_pool with
        | none => exact ensure_full_eq s
        | some ns =>
          rw [alloc_carved_full_eq]
          exact ensure_full_eq s

theorem alloc_carved_fail_state (ns : List alloc_node_t) (s : AllocState) (req : Nat)
    (hf : (alloc_carved ns s req).1 = none) : (alloc_carved ns s req).2 = s := by
  unfold alloc_carved at hf ⊢
  by_cases hh : s.head_index = -1
  · rw [if_pos hh] at hf ⊢
    by_cases hfits : NODE_POOL_BYTES + req ≤ TOTAL_MEMORY
    · rw [if_pos hfits] at hf ⊢
      by_cases hidx : node_slot_alloc ns < 0
      · rw [place_eq_of_slot_neg ns s _ req hidx]
      · rw [place_fst_of_slot ns s _ req hidx] at hf
        cases hf
    · rw [if_neg hfits]
  · rw [if_neg hh] at hf ⊢
    by_cases hc2 : NODE_POOL_BYTES + req ≤ (getN ns s.head_index).offset
    · rw [if_pos hc2] at hf ⊢
      by_cases hidx : node_slot_alloc ns < 0
      · rw [place_eq_of_slot_neg ns s _ req hidx]
      · rw [place_fst_of_slot ns s _ req hidx] at hf
        cases hf
    · rw [if_neg hc2] at hf ⊢
      cases hfg : find_gap ns req (MAX_NODES + 1) s.head_index with
      | none => rfl
      | some off =>
        simp only [hfg] at hf
        show (place ns s off req).2 = s
        by_cases hidx : node_slot_alloc ns < 0
        · rw [place_eq_of_slot_neg ns s _ req hidx]
        · rw [place_fst_of_slot ns s _ req hidx] at hf
          cases hf

theorem list_insert_sorted_snd_ne (ns : List alloc_node_t) (h idx : Int)
    (hidx : idx ≠ -1) : (list_insert_sorted ns h idx).2 ≠ -1 := by
  unfold list_insert_sorted
  split
  · exact hidx
  · rename_i hcond
    push_neg at hcond
    exact hcond.1

theorem place_success_head (ns : List alloc_node_t) (s : AllocState) (off req : Nat)
    (hidx : ¬(node_slot_alloc ns < 0)) : (place ns s off req).2.head_index ≠ -1 := by
  simp only [place, if_neg hidx]
  exact list_insert_sorted_snd_ne _ _ _ (by omega)

theorem alloc_carved_success (ns : List alloc_node_t) (s : AllocState) (req : Nat)
    (hsome : (alloc_carved ns s req).1.isSome = true) :
    (alloc_carved ns s req).2.node_pool ≠ none ∧
    (alloc_carved ns s req).2.head_index ≠ -1 := by
  unfold alloc_carved at hsome ⊢
  by_cases hh : s.head_index = -1
  · rw [if_pos hh] at hsome ⊢
    by_cases hfits : NODE_POOL_BYTES + req ≤ TOTAL_MEMORY
    · rw [if_pos hfits] at hsome ⊢
      by_cases hidx : node_slot_alloc ns < 0
      · rw [place_eq_of_slot_neg ns s _ req hidx] at hsome
        simp at hsome
      · exact ⟨by simp [place, hidx], place_success_head ns s _ req hidx⟩
    · rw [if_neg hfits] at hsome
      simp at hsome
  · rw [if_neg hh] at hsome ⊢
    by_cases hc2 : NODE_POOL_BYTES + req ≤ (getN ns s.head_index).offset
    · rw [if_pos hc2] at hsome ⊢
      by_cases hidx : node_slot_alloc ns < 0
      · rw [place_eq_of_slot_neg ns s _ req hidx] at hsome
        simp at hsome
      · exact ⟨by simp [place, hidx], place_success_head ns s _ req hidx⟩
    · rw [if_neg hc2] at hsome ⊢
      cases hfg : find_gap ns req (MAX_NODES + 1) s.head_index with
      | none =>
        simp only [hfg] at hsome
        simp at hsome
      | some off =>
        simp only [hfg] at hsome
        by_cases hidx : node_slot_alloc ns < 0
        · rw [place_eq_of_slot_neg ns s _ req hidx] at hsome
          simp at hsome
        · constructor
          · show (place ns s off req).2.node_pool ≠ none
            simp [place, hidx]
          · show (place ns s off req).2.head_index ≠ -1
            exact place_success_head ns s off req hidx

theorem allocate_success_carvedNonEmpty (s : AllocState) (n : Int)
    (hsome : (allocate n s).1.isSome = true) :
    carvedNonEmpty (allocate n s).2 := by
  unfold allocate at hsome ⊢
  by_cases hn : n ≤ 0
  · rw [if_pos hn] at hsome
    simp at hsome
  · rw [if_neg hn] at hsome ⊢
    by_cases hT : n.toNat = TOTAL_MEMORY
    · rw [if_pos hT] at hsome ⊢
      by_cases hguard : s.full_taken = true ∨ s.node_pool ≠ none ∨ s.head_index ≠ -1
      · rw [if_pos hguard] at hsome
        simp at hsome
      · rw [if_neg hguard] at hsome ⊢
        push_neg at hguard
        intro hne
        exact absurd hguard.2.1 hne
    · rw [if_neg hT] at hsome ⊢
      by_cases hful : s.full_taken = true
      · rw [if_pos hful] at hsome
        simp at hsome
      · rw [if_neg hful] at hsome ⊢
        cases hE : (ensure_node_pool s).node_pool with
        | none =>
          simp only [hE] at hsome
          simp at hsome
        | some ns =>
          simp only [hE] at hsome
          have := alloc_carved_success ns (ensure_node_pool s) n.toNat hsome
          intro hne
          exact this.2

theorem deallocate_carvedNonEmpty (s : AllocState) (hinv : AllocInv s)
    (hJ : carvedNonEmpty s) (p : Ptr) : carvedNonEmpty (deallocate p s) := by
  cases p with
  | null => exact hJ
  | addr d =>
    by_cases h0 : d < 0 ∨ (TOTAL_MEMORY : Int) ≤ d
    · have he : deallocate (.addr d) s = s := by
        show (if d < 0 ∨ (TOTAL_MEMORY : Int) ≤ d then s else _) = s
        rw [if_pos h0]
      rw [he]
      exact hJ
    · by_cases hnf : s.full_taken = true ∧ d = 0
      · have he : deallocate (.addr d) s = { s with full_taken := false } := by
          show (if d < 0 ∨ (TOTAL_MEMORY : Int) ≤ d then s
            else if s.full_taken = true ∧ d = 0 then { s with full_taken := false }
            else _) = _
          rw [if_neg h0, if_pos hnf]
        rw [he]
        intro hne
        exact hJ hne
      · cases hp : s.node_pool with
        | none =>
          have he : deallocate (.addr d) s = s := by
            show (if d < 0 ∨ (TOTAL_MEMORY : Int) ≤ d then s
              else if s.full_taken = true ∧ d = 0 then { s with full_taken := false }
              else match s.node_pool with
                | none => s
                | some ns =>
                  let r := list_remove_by_offset ns s.head_index d.toNat
                  let s1 : AllocState := { s with node_pool := some r.2.1, head_index := r.2.2 }
                  if r.1 < 0 then s1
                  else
                    let ns2 := r.2.1.set r.1.toNat
                      { getN r.2.1 r.1 with offset := 0, size := 0 }
                    let s2 : AllocState :=
                      { s with node_pool := some ns2, head_index := r.2.2 }
                    if r.2.2 = -1 then try_uncarve_when_empty s2 else s2) = s
            rw [if_neg h0, if_neg hnf, hp]
          rw [he]
          exact hJ
        | some ns =>
          rw [deallocate_carved_eq s ns d hp h0 hnf]
          obtain ⟨hlen, hfull, l, hchain, hOK, hg, hlive⟩ := hinv.2 ns hp
          obtain ⟨hseg0, -⟩ := chainList_to_seg ns _ _ l hchain
          rcases list_remove_by_offset_spec ns s.head_index d.toNat l hlen hseg0
              (nodup_of_inv ns l hOK hg) (length_le_max ns l hOK hg) with
            ⟨-, heq⟩ | ⟨l1, c, l2, ns', h', -, -, -, heq, -, -, -⟩
          · simp only [heq]
            rw [if_pos (by omega)]
            intro _
            exact hJ (by rw [hp]; simp)
          · simp only [heq]
            rw [if_neg (by omega)]
            by_cases hh' : h' = -1
            · rw [if_pos hh']
              unfold try_uncarve_when_empty
              rw [if_neg (by simpa using hh')]
              intro hne
              exact absurd rfl hne
            · rw [if_neg hh']
              intro _
              exact hh'

theorem allocsSucceed_run (ops : List Op) :
    ∀ s, AllocInv s → carvedNonEmpty s → allocsSucceedB s ops = true →
    AllocInv (runOpsFrom s ops) ∧ carvedNonEmpty (runOpsFrom s ops) := by
  induction ops with
  | nil =>
    intro s h1 h2 _
    exact ⟨h1, h2⟩
  | cons op ops ih =>
    intro s h1 h2 hB
    cases op with
    | alloc n =>
      have hB' : (allocate n s).1.isSome = true ∧ allocsSucceedB (allocate n s).2 ops = true := by
        simpa [allocsSucceedB, Bool.and_eq_true] using hB
      show AllocInv (runOpsFrom (allocate n s).2 ops) ∧
        carvedNonEmpty (runOpsFrom (allocate n s).2 ops)
      exact ih _ (allocate_spec s h1 n).1
        (allocate_success_carvedNonEmpty s n hB'.1) hB'.2
    | dealloc p =>
      have hB' : allocsSucceedB (deallocate p s) ops = true := by
        simpa [allocsSucceedB] using hB
      show AllocInv (runOpsFrom (deallocate p s) ops) ∧
        carvedNonEmpty (runOpsFrom (deallocate p s) ops)
      exact ih _ (deallocate_spec s h1 p) (deallocate_carvedNonEmpty s h1 h2 p) hB'

/-- Claim C1: no-overlap invariant — in every reachable state, the byte
ranges `[offset, offset+size)` of any two distinct allocation records
reachable from the list head are disjoint. -/
theorem no_overlap_invariant (s : AllocState) (hs : Reachable s)
    (ns : List alloc_node_t) (hp : s.node_pool = some ns)
    (l : List Nat) (hl : chainList ns (MAX_NODES + 1) s.head_index = some l)
    (i j : Nat) (hi : i ∈ l) (hj : j ∈ l) (hij : i ≠ j) :
    rangesDisjoint (getSlot ns i) (getSlot ns j) := by
  obtain ⟨-, -, l0, hchain0, hOK, hg, -⟩ := (reachable_inv s hs).2 ns hp
  rw [hchain0] at hl
  cases Option.some.inj hl
  have hpw : l.Pairwise (fun a b => slotR ns a b ∨ slotR ns b a) :=
    (gapSorted_pairwise ns l hg).imp (fun hab => Or.inl hab)
  have hsym : Symmetric (fun a b => slotR ns a b ∨ slotR ns b a) :=
    fun _ _ hab => hab.symm
  exact hpw.forall hsym hi hj hij

/-- Witness for C1 at the state reached by allocating 128 then 1024 bytes:
its two live records occupy disjoint ranges. -/
theorem no_overlap_invariant_witness :
    rangesDisjoint (getSlot demoPool1 0) (getSlot demoPool1 1) :=
  no_overlap_invariant demoState1 (reachable_runOps _) demoPool1 (by decide)
    demoChain1 (by decide) 0 1 (by decide) (by decide) (by decide)

/-- Claim C2: sorted-index invariant — in every reachable state, the chain
from the head visits records in strictly increasing offset order, and every
slot with nonzero size is on the chain. -/
theorem sorted_index_invariant (s : AllocState) (hs : Reachable s)
    (ns : List alloc_node_t) (hp : s.node_pool = some ns)
    (l : List Nat) (hl : chainList ns (MAX_NODES + 1) s.head_index = some l) :
    l.Pairwise (fun i j => (getSlot ns i).offset < (getSlot ns j).offset) ∧
    (∀ k, k < MAX_NODES → (getSlot ns k).size ≠ 0 → k ∈ l) := by
  obtain ⟨-, -, l0, hchain0, hOK, hg, hlive⟩ := (reachable_inv s hs).2 ns hp
  rw [hchain0] at hl
  cases Option.some.inj hl
  exact ⟨pairwise_offset_lt ns l hOK hg, hlive⟩

/-- Witness for C2 at the state reached by allocating 128 then 1024 bytes:
the chain offsets are strictly increasing. -/
theorem sorted_index_invariant_witness :
    demoChain1.Pairwise (fun i j => (getSlot demoPool1 i).offset < (getSlot demoPool1 j).offset) :=
  (sorted_index_invariant demoState1 (reachable_runOps _) demoPool1 (by decide)
    demoChain1 (by decide)).1

/-- Claim C3: whole-arena exclusivity — in every reachable state, when the
whole-arena flag is set the table is absent and the index empty, and
`allocate` never changes the flag while the table is carved or the index is
non-empty. -/
theorem whole_arena_exclusivity (s : AllocState) (hs : Reachable s) :
    (s.full_taken = true → s.node_pool = none ∧ s.head_index = -1) ∧
    (∀ n : Int, s.node_pool ≠ none ∨ s.head_index ≠ -1 →
      (allocate n s).2.full_taken = s.full_taken) := by
  have hinv := reachable_inv s hs
  constructor
  · intro hful
    cases hp : s.node_pool with
    | some ns =>
      have := (hinv.2 ns hp).2.1
      rw [hful] at this
      cases this
    | none => exact ⟨rfl, hinv.1 hp⟩
  · intro n hcond
    exact allocate_full_unchanged s n hcond

/-- Witness for C3 at the state reached by the whole-arena allocation: the
flag is set, and indeed the table is absent and the index empty. -/
theorem whole_arena_exclusivity_witness :
    fullState.node_pool = none ∧ fullState.head_index = -1 :=
  (whole_arena_exclusivity fullState (reachable_runOps _)).1 (by decide)

/-- Claim C7: usable-window containment — whenever a successful `allocate`
leaves the table carved, the returned block lies entirely inside
`[NODE_POOL_BYTES, TOTAL_MEMORY)`. -/
theorem usable_window_containment (s : AllocState) (hs : Reachable s)
    (n : Int) (off : Nat)
    (hoff : (allocate n s).1 = some off)
    (hc : (allocate n s).2.node_pool ≠ none) :
    NODE_POOL_BYTES ≤ off ∧ off + n.toNat ≤ TOTAL_MEMORY := by
  rcases (allocate_spec s (reachable_inv s hs) n).2 off hoff with
    ⟨-, hpool⟩ | ⟨h1, h2, -⟩
  · exact absurd hpool hc
  · exact ⟨h1, h2⟩

/-- Witness for C7: the first allocation of 128 bytes is placed at offset
1152 = `NODE_POOL_BYTES`, inside the usable window. -/
theorem usable_window_containment_witness :
    NODE_POOL_BYTES ≤ 1152 ∧ 1152 + (128 : Int).toNat ≤ TOTAL_MEMORY :=
  usable_window_containment initState Reachable.init 128 1152 (by decide) (by decide)

/-- Claim C4 (failing input): the code contradicts its own documented
alignment guarantee.  From the initial state, `allocate(1)` is placed at
offset 1152 and a subsequent `allocate(4)` is placed at offset 1153.  Since
the arena base is `max_align_t`-aligned, the returned address `base + 1153`
has an odd offset and so is not aligned to `sizeof(int)` (nor to any
multiple of 2), contrary to the header's "aligned to sizeof(int)". -/
theorem alignment_failing_input :
    (allocate 1 initState).1 = some 1152 ∧
    (allocate 4 (allocate 1 initState).2).1 = some 1153 ∧
    1153 % 4 = 1 ∧ 1153 % 2 = 1 := by
  refine ⟨by decide, by decide, by decide, by decide⟩

/-- Claim C5: idempotent release — along any call sequence whose `allocate`
calls all succeed, once no block remains live (empty index, whole-arena flag
clear) the table has been released and `allocate(TOTAL_MEMORY)` succeeds,
returning the arena base. -/
theorem idempotent_release (ops : List Op)
    (h1 : allocsSucceedB initState ops = true)
    (h2 : (runOps ops).head_index = -1)
    (h3 : (runOps ops).full_taken = false) :
    (allocate (TOTAL_MEMORY : Int) (runOps ops)).1 = some 0 := by
  obtain ⟨hinv, hJ⟩ := allocsSucceed_run ops initState
    ⟨fun _ => rfl, fun ns0 hns0 => by cases hns0⟩
    (fun hne => absurd rfl hne) h1
  have hpool : (runOps ops).node_pool = none := by
    by_contra hne
    exact hJ hne h2
  unfold allocate
  rw [if_neg (by simp [TOTAL_MEMORY])]
  rw [if_pos (by simp)]
  rw [if_neg (by simp [h3, hpool, h2])]

/-- Witness for C5: allocate 128 bytes, free it, then the whole-arena
allocation succeeds. -/
theorem idempotent_release_witness :
    (allocate (TOTAL_MEMORY : Int)
      (runOps [Op.alloc 128, Op.dealloc (Ptr.addr 1152)])).1 = some 0 :=
  idempotent_release [Op.alloc 128, Op.dealloc (Ptr.addr 1152)]
    (by decide) (by decide) (by decide)

/-- Claim C6: fit-and-reuse — allocating 128, 1024 and 4096 bytes from the
initial state succeeds at offsets 1152, 1280 and 2304 with pairwise disjoint
ranges; after freeing the 1024-byte block (offset 1280), `allocate(512)`
succeeds and reuses exactly that offset. -/
theorem fit_and_reuse :
    (allocate 128 initState).1 = some 1152 ∧
    (allocate 1024 (allocate 128 initState).2).1 = some 1280 ∧
    (allocate 4096 (allocate 1024 (allocate 128 initState).2).2).1 = some 2304 ∧
    rangesDisjoint (getSlot fitPool 0) (getSlot fitPool 1) ∧
    rangesDisjoint (getSlot fitPool 0) (getSlot fitPool 2) ∧
    rangesDisjoint (getSlot fitPool 1) (getSlot fitPool 2) ∧
    (allocate 512 (deallocate (Ptr.addr 1280) fitState)).1 = some 1280 := by
  refine ⟨by decide, by decide, by decide, ?_, ?_, ?_, by decide⟩
  · exact Or.inl (by decide)
  · exact Or.inl (by decide)
  · exact Or.inl (by decide)

/-- Claim C10 (implicit edge case): from the initial state, an allocation of
`TOTAL_MEMORY - 1` bytes fails but leaves the table carved with an empty
index, after which even `allocate(TOTAL_MEMORY)` fails although nothing is
allocated. -/
theorem carve_residue_blocks_full_alloc :
    (allocate ((TOTAL_MEMORY : Int) - 1) initState).1 = none ∧
    (allocate ((TOTAL_MEMORY : Int) - 1) initState).2.node_pool = some freshPool ∧
    (allocate ((TOTAL_MEMORY : Int) - 1) initState).2.head_index = -1 ∧
    (allocate (TOTAL_MEMORY : Int)
      (allocate ((TOTAL_MEMORY : Int) - 1) initState).2).1 = none := by
  refine ⟨by decide, by decide, by decide, by decide⟩

/-- Claim C8: failed-allocate atomicity — whenever `allocate` fails, the
state is unchanged except possibly for the idempotent carve of the metadata
table (which is exactly `ensure_node_pool`); in particular `allocate(0)` and
`allocate(-5)` fail and change nothing. -/
theorem failed_allocate_atomicity :
    (∀ (s : AllocState) (n : Int), (allocate n s).1 = none →
      (allocate n s).2 = s ∨ (allocate n s).2 = ensure_node_pool s) ∧
    (∀ s : AllocState, (allocate 0 s).1 = none ∧ (allocate 0 s).2 = s ∧
      (allocate (-5) s).1 = none ∧ (allocate (-5) s).2 = s) := by
  constructor
  · intro s n hf
    unfold allocate at hf ⊢
    by_cases hn : n ≤ 0
    · rw [if_pos hn]
      exact Or.inl rfl
    · rw [if_neg hn] at hf ⊢
      by_cases hT : n.toNat = TOTAL_MEMORY
      · rw [if_pos hT] at hf ⊢
        by_cases hguard : s.full_taken = true ∨ s.node_pool ≠ none ∨ s.head_index ≠ -1
        · rw [if_pos hguard]
          exact Or.inl rfl
        · rw [if_neg hguard] at hf
          cases hf
      · rw [if_neg hT] at hf ⊢
        by_cases hful : s.full_taken = true
        · rw [if_pos hful]
          exact Or.inl rfl
        · rw [if_neg hful] at hf ⊢
          cases hE : (ensure_node_pool s).node_pool with
          | none => exact Or.inr rfl
          | some ns =>
            simp only [hE] at hf
            exact Or.inr (alloc_carved_fail_state ns (ensure_node_pool s) n.toNat hf)
  · intro s
    exact ⟨rfl, rfl, rfl, rfl⟩

/-- Witness for C8: `allocate(TOTAL_MEMORY - 1)` from the initial state
fails, and the state is the initial one or its carved variant. -/
theorem failed_allocate_atomicity_witness :
    (allocate 102399 initState).2 = initState ∨
    (allocate 102399 initState).2 = ensure_node_pool initState :=
  failed_allocate_atomicity.1 initState 102399 (by decide)

/-- Claim C9: deallocate robustness — for any pointer that is not the base
of a currently live block (null, foreign, interior, or already freed),
`deallocate` returns normally and leaves the state unchanged. -/
theorem deallocate_robustness (s : AllocState) (hs : Reachable s) (p : Ptr)
    (hlb : liveAtB s p = false) : deallocate p s = s := by
  cases p with
  | null => rfl
  | addr d =>
    by_cases h0 : d < 0 ∨ (TOTAL_MEMORY : Int) ≤ d
    · show (if d < 0 ∨ (TOTAL_MEMORY : Int) ≤ d then s else _) = s
      rw [if_pos h0]
    · by_cases hnf : s.full_taken = true ∧ d = 0
      · exfalso
        simp [liveAtB, hnf.1, hnf.2] at hlb
      · cases hp : s.node_pool with
        | none =>
          show (if d < 0 ∨ (TOTAL_MEMORY : Int) ≤ d then s
            else if s.full_taken = true ∧ d = 0 then { s with full_taken := false }
            else match s.node_pool with
              | none => s
              | some ns =>
                let r := list_remove_by_offset ns s.head_index d.toNat
                let s1 : AllocState := { s with node_pool := some r.2.1, head_index := r.2.2 }
                if r.1 < 0 then s1
                else
                  let ns2 := r.2.1.set r.1.toNat
                    { getN r.2.1 r.1 with offset := 0, size := 0 }
                  let s2 : AllocState :=
                    { s with node_pool := some ns2, head_index := r.2.2 }
                  if r.2.2 = -1 then try_uncarve_when_empty s2 else s2) = s
          rw [if_neg h0, if_neg hnf, hp]
        | some ns =>
          obtain ⟨hlen, hfull, l, hchain, hOK, hg, hlive⟩ := (reachable_inv s hs).2 ns hp
          have hd0 : 0 ≤ d := by
            push_neg at h0
            omega
          have hany : ∀ i ∈ l, ¬(((getSlot ns i).offset : Int) = d) := by
            simp [liveAtB, hp, hchain, List.any_eq_true] at hlb
            exact hlb.2
          have hnolive : ∀ i ∈ l, (getSlot ns i).offset ≠ d.toNat := by
            intro i hi he
            exact hany i hi (by omega)
          rw [deallocate_carved_eq s ns d hp h0 hnf]
          rcases list_remove_by_offset_spec ns s.head_index d.toNat l hlen
              (chainList_to_seg ns _ _ l hchain).1
              (nodup_of_inv ns l hOK hg) (length_le_max ns l hOK hg) with
            ⟨-, heq⟩ | ⟨l1, c, l2, ns', h', hsplit, hc, -, heq, -, -, -⟩
          · simp only [heq]
            rw [if_pos (by omega)]
            show ({ s with node_pool := some ns, head_index := s.head_index } : AllocState) = s
            rw [← hp]
          · exfalso
            have hcmem : c ∈ l := by
              rw [hsplit]
              simp
            exact hnolive c hcmem hc

/-- Witness for C9: freeing an interior address of a live 128-byte block is
a no-op. -/
theorem deallocate_robustness_witness :
    deallocate (Ptr.addr 5000) (runOps [Op.alloc 128]) = runOps [Op.alloc 128] :=
  deallocate_robustness (runOps [Op.alloc 128]) (reachable_runOps _)
    (Ptr.addr 5000) (by decide)
